import Mathlib

/-!
# kubectl-resource-quota: the `run` command of `main.go`

A shallow embedding of `run` and of the library operations it calls, followed by
the properties of its output.

* Go strings are modelled by `String` (valid UTF-8 text), processed as lists of
  characters.
* `float64` is modelled by `F64`: sign, integer significand and binary exponent,
  with IEEE-754 round-to-nearest-even carried out on exact integer fractions.
* A `resource.Quantity` is modelled by the three observations `run` makes of it.
* Standard output is the list of the strings written by the successive
  `fmt.Printf` / `fmt.Println` calls.
-/

namespace ResourceQuotas

/-! ## Strings (`strings`, `unicode`) -/

/-- The separator character of the namespace list. -/
def comma : Char := Char.ofNat 44

/-- Go `unicode.IsSpace`: the Latin-1 spaces tab, LF, VT, FF, CR, space, NEL, NBSP and the
other code points with the Unicode White_Space property. -/
def isSpace (c : Char) : Bool :=
  let r := c.toNat
  (9 ≤ r && r ≤ 13) || r == 32 || r == 133 || r == 160 || r == 5760 ||
  (8192 ≤ r && r ≤ 8202) || r == 8232 || r == 8233 || r == 8239 || r == 8287 || r == 12288

/-- Go `strings.TrimSpace`: leading white space is removed, then trailing white space. -/
def TrimSpace (s : String) : String :=
  String.mk ((s.data.dropWhile isSpace).rdropWhile isSpace)

/-- Go `strings.Split(s, ",")`: the pieces of `s` between the commas; the empty string gives
one empty piece. -/
def Split (s : String) : List String :=
  (s.data.splitOn comma).map String.mk

/-- Go `strings.HasSuffix`: `len(s) >= len(suffix) && s[len(s)-len(suffix):] == suffix`. -/
def HasSuffix (s suffix : String) : Bool :=
  decide (suffix.data.length ≤ s.data.length) &&
    decide (s.data.drop (s.data.length - suffix.data.length) = suffix.data)

/-- Go `strings.Join(elems, sep)`. -/
def Join (elems : List String) (sep : String) : String :=
  String.mk (sep.data.intercalate (elems.map String.data))

/-! ## `strconv.ParseInt(s, 10, 64)` -/

deriving instance DecidableEq for Except

/-- The two failures of `strconv`: `ErrSyntax`, and `ErrRange` together with the value
returned beside it. -/
inductive NumError where
  | syntaxError : NumError
  | rangeError (val : Nat) : NumError
deriving DecidableEq, Repr

/-- The largest `uint64`. -/
def maxUint64 : Nat := 2 ^ 64 - 1

/-- The digit loop of `strconv.ParseUint(s, 10, 64)`, from accumulator `n`: a character that
is not a decimal digit is a syntax error; `n >= cutoff` before multiplying, or a sum above
`maxVal`, is a range error. -/
def parseUintLoop : List Char → Nat → Except NumError Nat
  | [], n => .ok n
  | c :: cs, n =>
    if 48 ≤ c.toNat ∧ c.toNat ≤ 57 then
      let d := c.toNat - 48
      if n ≥ maxUint64 / 10 + 1 then .error (.rangeError maxUint64)
      else
        let n1 := n * 10 + d
        if n1 > maxUint64 then .error (.rangeError maxUint64)
        else parseUintLoop cs n1
    else .error .syntaxError

/-- Go `strconv.ParseUint(s, 10, 64)`. -/
def ParseUint (s : List Char) : Except NumError Nat :=
  if s = [] then .error .syntaxError else parseUintLoop s 0

/-- Go `strconv.ParseInt(s, 10, 64)`: an optional sign, then `ParseUint`; a magnitude outside
the `int64` range is a range error. The result is the parsed value or the error. -/
def ParseInt (s : String) : Except NumError Int :=
  match s.data with
  | [] => .error .syntaxError
  | c :: cs =>
    let neg := c = Char.ofNat 45
    let body := if c = Char.ofNat 43 ∨ c = Char.ofNat 45 then cs else c :: cs
    let cutoff : Nat := 2 ^ 63
    match ParseUint body with
    | .error .syntaxError => .error .syntaxError
    | .error (.rangeError un) =>
      if ¬ neg ∧ un ≥ cutoff then .error (.rangeError (cutoff - 1))
      else if neg ∧ un > cutoff then .error (.rangeError cutoff)
      else .ok (if neg then -(un : Int) else (un : Int))
    | .ok un =>
      if ¬ neg ∧ un ≥ cutoff then .error (.rangeError (cutoff - 1))
      else if neg ∧ un > cutoff then .error (.rangeError cutoff)
      else .ok (if neg then -(un : Int) else (un : Int))

/-! ## `float64` -/

/-- The natural number `2 ^ max k 0`. -/
def exp2 (k : Int) : Nat := 2 ^ k.toNat

/-- Number of binary digits of `n`, with `fuel` bounding the recursion. -/
def bitLen : Nat → Nat → Nat
  | 0, _ => 0
  | fuel + 1, n => if n = 0 then 0 else bitLen fuel (n / 2) + 1

/-- The integer `floor (log2 (n / d))`, for positive `n` and `d`. -/
def ilog2 (n d : Nat) : Int :=
  let t : Int := (bitLen n n : Int) - (bitLen d d : Int)
  if d * exp2 t ≤ n * exp2 (-t) then t else t - 1

/-- The integer nearest to `n / d`, the even one of the two when `n / d` lies halfway
(`d` positive). -/
def rne (n d : Nat) : Nat :=
  let f := n / d
  let r := n % d
  if 2 * r < d then f else if d < 2 * r then f + 1 else if f % 2 = 0 then f else f + 1

/-- IEEE-754 binary64 rounding (to nearest, ties to even) of the positive fraction `n / d`:
`some (m, e)` is the finite value `m * 2 ^ e` in canonical form (`2 ^ 52 ≤ m < 2 ^ 53` and
`-1074 ≤ e ≤ 971`, or `m < 2 ^ 52` and `e = -1074`), `none` is overflow. -/
def roundFrac (n d : Nat) : Option (Nat × Int) :=
  if n = 0 then some (0, -1074) else
  let u : Int := max (ilog2 n d) (-1022) - 52
  let m := rne (n * exp2 (-u)) (d * exp2 u)
  let r : Nat × Int := if m = 2 ^ 53 then (2 ^ 52, u + 1) else (m, u)
  if r.2 ≤ 971 then some r else none

/-- A `float64` value: not-a-number, an infinity, or the finite value
`(-1) ^ neg * m * 2 ^ e` (the zeros are `m = 0`). -/
inductive F64 where
  | nan : F64
  | inf (neg : Bool) : F64
  | fin (neg : Bool) (m : Nat) (e : Int) : F64
deriving DecidableEq, Repr

namespace F64

/-- The `float64` nearest to `(-1) ^ neg * n / d`. -/
def round (neg : Bool) (n d : Nat) : F64 :=
  match roundFrac n d with
  | some (m, e) => fin neg m e
  | none => inf neg

/-- The positive zero. -/
def zero : F64 := fin false 0 (-1074)

/-- Conversion of an untyped integer constant, or of an `int64`, to `float64`. -/
def ofInt (v : Int) : F64 := round (decide (v < 0)) v.natAbs 1

/-- The `float64` quotient `x / y`. -/
def div : F64 → F64 → F64
  | nan, _ => nan
  | _, nan => nan
  | inf _, inf _ => nan
  | inf s, fin t _ _ => inf (xor s t)
  | fin s _ _, inf t => fin (xor s t) 0 (-1074)
  | fin s m e, fin t m1 e1 =>
    if m1 = 0 then (if m = 0 then nan else inf (xor s t))
    else round (xor s t) (m * exp2 (e - e1)) (m1 * exp2 (e1 - e))

/-- The `float64` product `x * y`. -/
def mul : F64 → F64 → F64
  | nan, _ => nan
  | _, nan => nan
  | inf s, inf t => inf (xor s t)
  | inf s, fin t m _ => if m = 0 then nan else inf (xor s t)
  | fin s m _, inf t => if m = 0 then nan else inf (xor s t)
  | fin s m e, fin t m1 e1 =>
    round (xor s t) (m * m1 * exp2 (e + e1)) (exp2 (-(e + e1)))

/-- The comparison `x < y` of `float64`: false as soon as one side is not a number, and the
two zeros are equal. -/
def lt : F64 → F64 → Bool
  | nan, _ => false
  | _, nan => false
  | inf s, inf t => s && !t
  | inf s, fin _ _ _ => s
  | fin _ _ _, inf t => !t
  | fin s m e, fin t m1 e1 =>
    decide ((if s then -(m : Int) else (m : Int)) * (exp2 (e - e1) : Int) <
      (if t then -(m1 : Int) else (m1 : Int)) * (exp2 (e1 - e) : Int))

/-- A finite value is canonical when its significand and exponent are those of its binary64
encoding. -/
def canonical : F64 → Bool
  | nan => true
  | inf _ => true
  | fin _ m e =>
    decide (m < 2 ^ 53) && decide (e ≤ 971) &&
      ((decide (2 ^ 52 ≤ m) && decide (-1074 ≤ e)) || decide (e = -1074))

end F64

/-- The digits of `n` in base ten, padded with zeros on the left to at least `width`
characters. -/
def padZero (width n : Nat) : String :=
  let ds := Nat.toDigits 10 n
  String.mk (List.replicate (width - ds.length) (Char.ofNat 48) ++ ds)

/-- The fraction `n / d` (`d` positive) rendered with exactly `prec` decimals: the integer
nearest to `n / d * 10 ^ prec` (ties to even) with a decimal point `prec` digits from its
right end. -/
def fixedDecimals (prec n d : Nat) : String :=
  let h := rne (n * 10 ^ prec) d
  toString (h / 10 ^ prec) ++ (if prec = 0 then "" else "." ++ padZero prec (h % 10 ^ prec))

/-- Go `fmt.Sprintf("%.<prec>f", x)`: the exact value of `x` rounded to `prec` decimals,
ties to even. -/
def fmtF (prec : Nat) : F64 → String
  | F64.nan => "NaN"
  | F64.inf false => "+Inf"
  | F64.inf true => "-Inf"
  | F64.fin s m e =>
    (if s then "-" else "") ++ fixedDecimals prec (m * exp2 e) (exp2 (-e))

/-! ## The objects read from the cluster -/

/-- A `resource.Quantity`, by the three observations `run` makes of it: `q.String()`,
`q.IsZero()` and `q.AsApproximateFloat64()`. -/
structure Quantity where
  str : String
  isZero : Bool
  approx : F64
deriving DecidableEq, Repr

/-- The zero value `resource.Quantity{}`, which indexing a map yields for a missing key: it
prints as `0`, is zero, and its `float64` value is `0`. -/
def Quantity.zeroValue : Quantity := ⟨"0", true, F64.zero⟩

/-- A `v1.ResourceList`, the Go map `map[ResourceName]resource.Quantity`, given by its
entries. For the map that `run` ranges over, the list is the order in which the `range`
statement visits the entries; Go leaves that order to the runtime, which varies it from one
`range` statement to the next. -/
abbrev ResourceList := List (String × Quantity)

/-- The Go map index expression `m[key]`: the value stored under `key`, the zero value when
there is none. -/
def ResourceList.index (m : ResourceList) (key : String) : Quantity :=
  (m.lookup key).getD Quantity.zeroValue

/-- The field `Status` of a `v1.ResourceQuota`. -/
structure ResourceQuotaStatus where
  Hard : ResourceList
  Used : ResourceList
deriving DecidableEq, Repr

/-- A `v1.ResourceQuota`, by the fields `run` reads. -/
structure ResourceQuota where
  Name : String
  Namespace : String
  Status : ResourceQuotaStatus
deriving DecidableEq, Repr

/-- The client returned by `setupKubernetesClient`, by the one request `run` sends:
`client.CoreV1().ResourceQuotas(namespace).List(...)` answers with the items of the quota
list or with an error (its message). The cluster is read as a snapshot: during one run the
answer depends on the namespace only. -/
abbrev Clientset := String → Except String (List ResourceQuota)

/-! ## `run` -/

/-- Lines 115-124 and 126-135 of `main.go`, the same statement for `usedStr` and for
`hardStr`: a string ending in `Ki`, `Mi` or `Gi` is kept; otherwise a string that parses as
an `int64` above 1024 is rendered in `Gi` from `1024*1024*1024` on and in `Mi` from
`1024*1024` on; any other string is kept. -/
def normalizeDisplay (str : String) : String :=
  if HasSuffix str "Ki" || HasSuffix str "Mi" || HasSuffix str "Gi" then str
  else
    match ParseInt str with
    | .ok val =>
      if val > 1024 then
        if val ≥ 1024 * 1024 * 1024 then
          fmtF 2 (F64.div (F64.ofInt val) (F64.ofInt (1024 * 1024 * 1024))) ++ "Gi"
        else if val ≥ 1024 * 1024 then
          fmtF 2 (F64.div (F64.ofInt val) (F64.ofInt (1024 * 1024))) ++ "Mi"
        else str
      else str
    | .error _ => str

/-- Lines 105-112: the variable `percentage`, zero unless the hard limit is not zero and its
`float64` value is positive, and then `(usedVal / hardVal) * 100`. -/
def percentage (used hardLimit : Quantity) : F64 :=
  if !hardLimit.isZero then
    let usedVal := used.approx
    let hardVal := hardLimit.approx
    if F64.lt F64.zero hardVal then F64.mul (F64.div usedVal hardVal) (F64.ofInt 100)
    else F64.zero
  else F64.zero

/-- Lines 100-137: the row printed for the entry `resourceName, hardLimit` of
`quota.Status.Hard`. -/
def row (quota : ResourceQuota) (resourceName : String) (hardLimit : Quantity) : String :=
  let used := quota.Status.Used.index resourceName
  let usedStr := normalizeDisplay used.str
  let hardStr := normalizeDisplay hardLimit.str
  resourceName ++ "\t\t" ++ usedStr ++ "\t\t" ++ hardStr ++ "\t\t" ++
    fmtF 1 (percentage used hardLimit) ++ "%\n"

/-- The rule printed above and below the name of a quota. -/
def rule : String := "==========================================\n"

/-- Lines 92-97: the header block of a quota. -/
def header (quota : ResourceQuota) : List String :=
  [rule, "Name:\t\t" ++ quota.Name ++ "\n", "Namespace:\t" ++ quota.Namespace ++ "\n", rule,
    "Resource\t\tUsed\t\tHard\t\tPercentage\n", "--------\t\t----\t\t----\t\t----------\n"]

/-- Lines 99-138: the rows of a quota, one for each entry that the `range` statement
visits. -/
def rows (quota : ResourceQuota) : List String :=
  quota.Status.Hard.map (fun kv => row quota kv.1 kv.2)

/-- Lines 91-139: what the body of the loop over `quotaList.Items` prints for one quota. -/
def printQuota (quota : ResourceQuota) : List String :=
  header quota ++ rows quota ++ ["\n"]

/-- The variables that the loop over `nsList` updates, what has been printed and `emptyNs`,
together with the record of the list requests sent so far (the namespace of each). -/
structure LoopState where
  out : List String
  emptyNs : List String
  requests : List String
deriving DecidableEq, Repr

/-- The state before the first iteration. -/
def LoopState.init : LoopState := ⟨[], [], []⟩

/-- Lines 71-140: the body of the loop over `nsList`, for the element `piece`. -/
def loopBody (client : Clientset) (st : LoopState) (piece : String) : LoopState :=
  let nspace := TrimSpace piece
  if nspace = "" then st
  else
    let out := st.out ++ ["Checking namespace: " ++ nspace ++ "\n"]
    let requests := st.requests ++ [nspace]
    match client nspace with
    | .error err =>
      { out := out ++ ["ERROR getting quotas for " ++ nspace ++ ": " ++ err ++ "\n"],
        emptyNs := st.emptyNs,
        requests := requests }
    | .ok items =>
      if items.length = 0 then
        { out := out ++ ["No quotas found in " ++ nspace ++ "\n"],
          emptyNs := st.emptyNs ++ [nspace],
          requests := requests }
      else
        { out := out ++ (items.map printQuota).flatten,
          emptyNs := st.emptyNs,
          requests := requests }

/-- Lines 70-141: the loop over `nsList`, from the state `st`. -/
def loop (client : Clientset) (st : LoopState) (nsList : List String) : LoopState :=
  nsList.foldl (loopBody client) st

/-- Lines 143-145: the closing line, printed when `emptyNs` is not empty. -/
def summary (emptyNs : List String) : List String :=
  if emptyNs.length > 0 then ["Namespaces with no quotas: " ++ Join emptyNs ", " ++ "\n"]
  else []

/-- What a call of `run` does: the strings printed, the list requests sent, and the error
returned (`none` for `nil`). -/
structure Outcome where
  out : List String
  requests : List String
  err : Option String
deriving DecidableEq, Repr

/-- The function `run`: `ns` is the value of the flag `--namespaces` and `setup` the result
of `setupKubernetesClient(config)`. -/
def run (ns : String) (setup : Except String Clientset) : Outcome :=
  let nsList := Split ns
  match setup with
  | .error err => { out := [], requests := [], err := some err }
  | .ok client =>
    let st := loop client LoopState.init nsList
    { out := st.out ++ summary st.emptyNs, requests := st.requests, err := none }

/-! ## Definitions used to state the properties -/

/-- The namespaces named by the argument: its comma-separated pieces, each trimmed of
surrounding white space, without the pieces that are empty after trimming. -/
def namespacesOf (ns : String) : List String :=
  ((Split ns).map TrimSpace).filter (fun n => decide (n ≠ ""))

/-- What one iteration of the loop over `nsList` prints. -/
def pieceOutput (client : Clientset) (piece : String) : List String :=
  (loopBody client LoopState.init piece).out

/-- A decimal digit. -/
def isDigit (c : Char) : Bool := decide (48 ≤ c.toNat) && decide (c.toNat ≤ 57)

/-- The number written by a string of decimal digits. -/
def digitsValue (cs : List Char) : Nat :=
  cs.foldl (fun n c => n * 10 + (c.toNat - 48)) 0

/-- The digits of a string after its sign, if it has one. -/
def unsignedPart (s : String) : List Char :=
  match s.data with
  | [] => []
  | c :: cs => if c = Char.ofNat 43 ∨ c = Char.ofNat 45 then cs else c :: cs

/-- A plain base-10 integer: an optional sign `+` or `-` followed by one or more decimal
digits. -/
def isPlainInt (s : String) : Bool :=
  decide (unsignedPart s ≠ []) && (unsignedPart s).all isDigit

/-- The integer written by a plain base-10 integer string. -/
def intValue (s : String) : Int :=
  if s.data.head? = some (Char.ofNat 45) then -(digitsValue (unsignedPart s) : Int)
  else (digitsValue (unsignedPart s) : Int)

/-- The natural number `v` rounded to 53 significant binary digits, ties to even: the value
of the `float64` nearest to `v`. -/
def nearest53 (v : Nat) : Nat :=
  let k := bitLen v v - 53
  rne v (2 ^ k) * 2 ^ k

/-- Two quota objects with the same content: the same name and namespace, the same entries
in `Status.Hard` whatever the order in which `range` visits them, and the same value under
every key of `Status.Used`. -/
def sameContent (q q1 : ResourceQuota) : Prop :=
  q.Name = q1.Name ∧ q.Namespace = q1.Namespace ∧ q.Status.Hard.Perm q1.Status.Hard ∧
    ∀ key, q.Status.Used.index key = q1.Status.Used.index key

/-- Two answers to a list request with the same content: the same error, or quota lists of
the same length whose items have the same content, one by one. -/
def sameResponse :
    Except String (List ResourceQuota) → Except String (List ResourceQuota) → Prop
  | .error e, .error e1 => e = e1
  | .ok items, .ok items1 => List.Forall₂ sameContent items items1
  | _, _ => False

/-- The quota object of the end-to-end example: `compute-quota` in `team-a`. -/
def exQuota : ResourceQuota :=
  { Name := "compute-quota", Namespace := "team-a",
    Status :=
      { Hard := [("cpu", ⟨"4", false, F64.ofInt 4⟩),
                 ("memory", ⟨"4Gi", false, F64.ofInt 4294967296⟩)],
        Used := [("cpu", ⟨"2", false, F64.ofInt 2⟩),
                 ("memory", ⟨"2147483648", false, F64.ofInt 2147483648⟩)] } }

/-- The same quota object with the entries of `Status.Hard` visited in the other order. -/
def exQuotaSwapped : ResourceQuota :=
  { Name := "compute-quota", Namespace := "team-a",
    Status :=
      { Hard := [("memory", ⟨"4Gi", false, F64.ofInt 4294967296⟩),
                 ("cpu", ⟨"4", false, F64.ofInt 4⟩)],
        Used := [("cpu", ⟨"2", false, F64.ofInt 2⟩),
                 ("memory", ⟨"2147483648", false, F64.ofInt 2147483648⟩)] } }

/-- A cluster in which `team-a` holds `exQuota`, `broken` cannot be listed, and every other
namespace has no quota. -/
def exClient : Clientset := fun n =>
  if n = "team-a" then .ok [exQuota]
  else if n = "broken" then .error "forbidden"
  else .ok []

/-- The cluster `exClient`, with the entries of the quota visited in the other order. -/
def exClientSwapped : Clientset := fun n =>
  if n = "team-a" then .ok [exQuotaSwapped]
  else if n = "broken" then .error "forbidden"
  else .ok []

/-- The usage `9007199254740993` (`2^53 + 1`): it is printed as such, is not zero, and its
`float64` value is `float64(9007199254740993)`. -/
def exUsedOver : Quantity := ⟨"9007199254740993", false, F64.ofInt 9007199254740993⟩

/-- The hard limit `9007199254740992` (`2^53`): it is printed as such, is not zero, and its
`float64` value is `float64(9007199254740992)`. -/
def exHardOver : Quantity := ⟨"9007199254740992", false, F64.ofInt 9007199254740992⟩

set_option maxRecDepth 8000
set_option exponentiation.threshold 4096

/-! ## Strings -/

theorem hasSuffix_append (x suf : String) : HasSuffix (x ++ suf) suf = true := by
  simp [HasSuffix, String.data_append]

theorem hasSuffix_data {s suf : String} (h : HasSuffix s suf = true) :
    ∃ p : List Char, s.data = p ++ suf.data := by
  simp only [HasSuffix, Bool.and_eq_true, decide_eq_true_eq] at h
  refine ⟨s.data.take (s.data.length - suf.data.length), ?_⟩
  conv_lhs => rw [← List.take_append_drop (s.data.length - suf.data.length) s.data]
  rw [h.2]

/-- Joining the pieces of `Split` with commas gives the string back. -/
theorem join_split (s : String) : Join (Split s) "," = s := by
  have h : (Split s).map String.data = s.data.splitOn comma := by
    simp [Split, List.map_map, Function.comp_def]
  have hc : (",".data : List Char) = [comma] := by decide
  unfold Join
  rw [h, hc, List.intercalate_splitOn]

theorem splitOnP_no_sep (p : Char → Bool) (l : List Char) :
    ∀ piece ∈ l.splitOnP p, ∀ c ∈ piece, p c = false := by
  induction l with
  | nil => simp
  | cons x xs ih =>
    rw [List.splitOnP_cons]
    by_cases hx : p x = true
    · rw [if_pos hx]
      intro piece hmem c hc
      rcases List.mem_cons.mp hmem with h | h
      · subst h
        simp at hc
      · exact ih piece h c hc
    · rw [if_neg hx]
      cases hsp : List.splitOnP p xs with
      | nil => simp [List.modifyHead]
      | cons y ys =>
        rw [hsp] at ih
        intro piece hmem c hc
        simp only [List.modifyHead, List.mem_cons] at hmem
        rcases hmem with h | h
        · subst h
          rcases List.mem_cons.mp hc with h1 | h1
          · subst h1
            simpa using hx
          · exact ih y (List.mem_cons_self _ _) c h1
        · exact ih piece (List.mem_cons_of_mem _ h) c hc

/-- No piece of `Split` contains a comma. -/
theorem split_no_comma (s piece : String) (h : piece ∈ Split s) : comma ∉ piece.data := by
  simp only [Split, List.mem_map] at h
  obtain ⟨l, hl, rfl⟩ := h
  intro hc
  have := splitOnP_no_sep (fun c => c == comma) s.data l hl comma hc
  simp at this

/-- `TrimSpace` removes a run of white space at each end and nothing else, and what is left
neither starts nor ends with white space. -/
theorem trimSpace_spec (s : String) :
    (∃ a b : List Char, s.data = a ++ (TrimSpace s).data ++ b ∧
      (∀ c ∈ a, isSpace c = true) ∧ ∀ c ∈ b, isSpace c = true) ∧
    (∀ c, (TrimSpace s).data.head? = some c → isSpace c = false) ∧
    ∀ c, (TrimSpace s).data.getLast? = some c → isSpace c = false := by
  refine ⟨⟨s.data.takeWhile isSpace, (s.data.dropWhile isSpace).rtakeWhile isSpace,
    ?_, ?_, ?_⟩, ?_, ?_⟩
  · simp only [TrimSpace, List.append_assoc]
    have h1 : List.rdropWhile isSpace (List.dropWhile isSpace s.data) ++
        List.rtakeWhile isSpace (List.dropWhile isSpace s.data) =
        List.dropWhile isSpace s.data := by
      simp only [List.rdropWhile, List.rtakeWhile, ← List.reverse_append,
        List.takeWhile_append_dropWhile, List.reverse_reverse]
    rw [h1, List.takeWhile_append_dropWhile]
  · intro c hc
    exact (List.mem_takeWhile_imp hc)
  · intro c hc
    exact List.mem_rtakeWhile_imp hc
  · intro c hc
    simp only [TrimSpace] at hc
    by_cases hsp : isSpace c = true
    · exfalso
      have hpre : List.rdropWhile isSpace (List.dropWhile isSpace s.data) <+:
          List.dropWhile isSpace s.data := List.rdropWhile_prefix _ _
      obtain ⟨t, ht⟩ := hpre
      cases hr : List.rdropWhile isSpace (List.dropWhile isSpace s.data) with
      | nil => rw [hr] at hc; simp at hc
      | cons x xs =>
        rw [hr] at hc ht
        simp only [List.head?_cons, Option.some.injEq] at hc
        subst hc
        have hd : (List.dropWhile isSpace s.data).head? = some x := by
          rw [← ht]; rfl
        have := List.head?_dropWhile_not isSpace s.data
        rw [hd] at this
        simp [hsp] at this
    · simpa using hsp
  · intro c hc
    simp only [TrimSpace] at hc
    by_cases hne : List.rdropWhile isSpace (List.dropWhile isSpace s.data) = []
    · rw [hne] at hc; simp at hc
    · have := List.rdropWhile_last_not isSpace (List.dropWhile isSpace s.data) hne
      rw [List.getLast?_eq_getLast _ hne] at hc
      simp only [Option.some.injEq] at hc
      rw [hc] at this
      simpa using this

/-! ## Display normalization -/

theorem normalizeDisplay_of_suffix (s : String)
    (h : HasSuffix s "Ki" = true ∨ HasSuffix s "Mi" = true ∨ HasSuffix s "Gi" = true) :
    normalizeDisplay s = s := by
  unfold normalizeDisplay
  have h1 : (HasSuffix s "Ki" || HasSuffix s "Mi" || HasSuffix s "Gi") = true := by
    rcases h with h | h | h <;> simp [h]
  rw [if_pos h1]

theorem normalizeDisplay_cases (s : String) :
    normalizeDisplay s = s ∨ (∃ r : String, normalizeDisplay s = r ++ "Gi") ∨
      ∃ r : String, normalizeDisplay s = r ++ "Mi" := by
  unfold normalizeDisplay
  split
  · exact Or.inl rfl
  · split
    · split
      · split
        · exact Or.inr (Or.inl ⟨_, rfl⟩)
        · split
          · exact Or.inr (Or.inr ⟨_, rfl⟩)
          · exact Or.inl rfl
      · exact Or.inl rfl
    · exact Or.inl rfl

/-- C2. A quantity string that ends in `Ki`, `Mi` or `Gi` is returned unmodified by the
display normalization, and so it is shown as it is in the used column and in the hard
column of a row. -/
theorem normalizeDisplay_binary_suffix (s : String)
    (h : HasSuffix s "Ki" = true ∨ HasSuffix s "Mi" = true ∨ HasSuffix s "Gi" = true) :
    normalizeDisplay s = s ∧
    ∀ (quota : ResourceQuota) (resourceName : String) (hardLimit : Quantity),
      ((quota.Status.Used.index resourceName).str = s →
        row quota resourceName hardLimit =
          resourceName ++ "\t\t" ++ s ++ "\t\t" ++ normalizeDisplay hardLimit.str ++ "\t\t" ++
            fmtF 1 (percentage (quota.Status.Used.index resourceName) hardLimit) ++ "%\n") ∧
      (hardLimit.str = s →
        row quota resourceName hardLimit =
          resourceName ++ "\t\t" ++ normalizeDisplay (quota.Status.Used.index resourceName).str ++
            "\t\t" ++ s ++ "\t\t" ++
            fmtF 1 (percentage (quota.Status.Used.index resourceName) hardLimit) ++ "%\n") := by
  have hs := normalizeDisplay_of_suffix s h
  refine ⟨hs, ?_⟩
  intro quota resourceName hardLimit
  constructor
  · intro hu
    simp only [row, hu, hs]
  · intro hh
    simp only [row, hh, hs]

theorem normalizeDisplay_binary_suffix_witness :
    (HasSuffix "4Gi" "Ki" = true ∨ HasSuffix "4Gi" "Mi" = true ∨
        HasSuffix "4Gi" "Gi" = true) ∧
      normalizeDisplay "4Gi" = "4Gi" :=
  ⟨by decide, (normalizeDisplay_binary_suffix "4Gi" (by decide)).1⟩

/-- C10. The display normalization is idempotent: normalizing a normalized string changes
nothing, since a string that was re-rendered ends in `Mi` or `Gi`. -/
theorem normalizeDisplay_idempotent (s : String) :
    normalizeDisplay (normalizeDisplay s) = normalizeDisplay s := by
  rcases normalizeDisplay_cases s with h | ⟨r, h⟩ | ⟨r, h⟩
  · rw [h, h]
  · rw [h]
    exact normalizeDisplay_of_suffix _ (Or.inr (Or.inr (hasSuffix_append r "Gi")))
  · rw [h]
    exact normalizeDisplay_of_suffix _ (Or.inr (Or.inl (hasSuffix_append r "Mi")))

/-! ## The loop over the namespaces -/

theorem loopBody_skip (client : Clientset) (st : LoopState) (piece : String)
    (h : TrimSpace piece = "") : loopBody client st piece = st := by
  simp [loopBody, h]

theorem loopBody_error (client : Clientset) (st : LoopState) (piece e : String)
    (h : TrimSpace piece ≠ "") (herr : client (TrimSpace piece) = .error e) :
    loopBody client st piece =
      { out := st.out ++ ["Checking namespace: " ++ TrimSpace piece ++ "\n",
          "ERROR getting quotas for " ++ TrimSpace piece ++ ": " ++ e ++ "\n"],
        emptyNs := st.emptyNs,
        requests := st.requests ++ [TrimSpace piece] } := by
  simp [loopBody, h, herr]

theorem loopBody_empty (client : Clientset) (st : LoopState) (piece : String)
    (h : TrimSpace piece ≠ "") (hok : client (TrimSpace piece) = .ok []) :
    loopBody client st piece =
      { out := st.out ++ ["Checking namespace: " ++ TrimSpace piece ++ "\n",
          "No quotas found in " ++ TrimSpace piece ++ "\n"],
        emptyNs := st.emptyNs ++ [TrimSpace piece],
        requests := st.requests ++ [TrimSpace piece] } := by
  simp [loopBody, h, hok]

theorem loopBody_items (client : Clientset) (st : LoopState) (piece : String)
    (items : List ResourceQuota) (h : TrimSpace piece ≠ "")
    (hok : client (TrimSpace piece) = .ok items) (hne : items ≠ []) :
    loopBody client st piece =
      { out := st.out ++ ["Checking namespace: " ++ TrimSpace piece ++ "\n"] ++
          (items.map printQuota).flatten,
        emptyNs := st.emptyNs,
        requests := st.requests ++ [TrimSpace piece] } := by
  have hlen : items.length ≠ 0 := by
    intro h0
    exact hne (List.length_eq_zero.mp h0)
  simp [loopBody, h, hok, hlen]

/-- The body of the loop only appends to the three variables, and what it appends does not
depend on the state. -/
theorem loopBody_append (client : Clientset) (st : LoopState) (piece : String) :
    loopBody client st piece =
      { out := st.out ++ (loopBody client LoopState.init piece).out,
        emptyNs := st.emptyNs ++ (loopBody client LoopState.init piece).emptyNs,
        requests := st.requests ++ (loopBody client LoopState.init piece).requests } := by
  by_cases h : TrimSpace piece = ""
  · simp [loopBody_skip client _ piece h, LoopState.init]
  · cases hc : client (TrimSpace piece) with
    | error e =>
      simp [loopBody_error client _ piece e h hc, LoopState.init]
    | ok items =>
      by_cases hi : items = []
      · subst hi
        simp [loopBody_empty client _ piece h hc, LoopState.init]
      · simp [loopBody_items client _ piece items h hc hi, LoopState.init]

theorem loop_nil (client : Clientset) (st : LoopState) : loop client st [] = st := rfl

theorem loop_cons (client : Clientset) (st : LoopState) (piece : String) (l : List String) :
    loop client st (piece :: l) = loop client (loopBody client st piece) l := rfl

/-- The loop from any state appends what the loop from the initial state produces. -/
theorem loop_append_state (client : Clientset) (l : List String) (st : LoopState) :
    loop client st l =
      { out := st.out ++ (loop client LoopState.init l).out,
        emptyNs := st.emptyNs ++ (loop client LoopState.init l).emptyNs,
        requests := st.requests ++ (loop client LoopState.init l).requests } := by
  induction l generalizing st with
  | nil => simp [loop_nil, LoopState.init]
  | cons piece l ih =>
    rw [loop_cons, ih, loop_cons, ih (loopBody client LoopState.init piece),
      loopBody_append client st piece]
    simp [List.append_assoc]

theorem loop_append_list (client : Clientset) (l1 l2 : List String) :
    loop client LoopState.init (l1 ++ l2) =
      { out := (loop client LoopState.init l1).out ++ (loop client LoopState.init l2).out,
        emptyNs :=
          (loop client LoopState.init l1).emptyNs ++ (loop client LoopState.init l2).emptyNs,
        requests :=
          (loop client LoopState.init l1).requests ++
            (loop client LoopState.init l2).requests } := by
  have h : loop client LoopState.init (l1 ++ l2) =
      loop client (loop client LoopState.init l1) l2 := by
    simp [loop, List.foldl_append]
  rw [h, loop_append_state]

theorem loop_out (client : Clientset) (l : List String) :
    (loop client LoopState.init l).out = (l.map (pieceOutput client)).flatten := by
  induction l with
  | nil => rfl
  | cons piece l ih =>
    rw [loop_cons, loop_append_state]
    simp [ih, pieceOutput]

theorem loop_requests (client : Clientset) (l : List String) :
    (loop client LoopState.init l).requests =
      (l.map TrimSpace).filter (fun n => decide (n ≠ "")) := by
  induction l with
  | nil => rfl
  | cons piece l ih =>
    rw [loop_cons, loop_append_state]
    simp only [ih, List.map_cons]
    by_cases h : TrimSpace piece = ""
    · simp [loopBody_skip client _ piece h, LoopState.init, h]
    · have hreq : (loopBody client LoopState.init piece).requests = [TrimSpace piece] := by
        cases hc : client (TrimSpace piece) with
        | error e => simp [loopBody_error client _ piece e h hc, LoopState.init]
        | ok items =>
          by_cases hi : items = []
          · subst hi
            simp [loopBody_empty client _ piece h hc, LoopState.init]
          · simp [loopBody_items client _ piece items h hc hi, LoopState.init]
      simp [hreq, h]

theorem loop_emptyNs (client : Clientset) (l : List String) :
    (loop client LoopState.init l).emptyNs =
      ((l.map TrimSpace).filter (fun n => decide (n ≠ ""))).filter
        (fun n => decide (client n = .ok [])) := by
  induction l with
  | nil => rfl
  | cons piece l ih =>
    rw [loop_cons, loop_append_state]
    simp only [ih, List.map_cons]
    by_cases h : TrimSpace piece = ""
    · simp [loopBody_skip client _ piece h, LoopState.init, h]
    · cases hc : client (TrimSpace piece) with
      | error e => simp [loopBody_error client _ piece e h hc, LoopState.init, h, hc]
      | ok items =>
        by_cases hi : items = []
        · subst hi
          simp [loopBody_empty client _ piece h hc, LoopState.init, h, hc]
        · simp [loopBody_items client _ piece items h hc hi, LoopState.init, h, hc, hi]

theorem run_out (ns : String) (client : Clientset) :
    (run ns (.ok client)).out =
      ((Split ns).map (pieceOutput client)).flatten ++
        summary ((namespacesOf ns).filter (fun n => decide (client n = .ok []))) := by
  simp only [run, loop_out, loop_emptyNs, namespacesOf]

theorem summary_nil : summary [] = [] := rfl

theorem summary_of_ne_nil (l : List String) (h : l ≠ []) :
    summary l = ["Namespaces with no quotas: " ++ Join l ", " ++ "\n"] := by
  have : l.length > 0 := List.length_pos.mpr h
  simp [summary, this]

/-- C4. The namespaces for which `run` sends a list request are, in this order, the
comma-separated pieces of the argument, each trimmed of surrounding white space, without the
pieces that are empty after trimming; duplicates are kept. For `a, ,b` they are `a` and
`b`. -/
theorem run_requests_namespaces (ns : String) (client : Clientset) :
    (run ns (.ok client)).requests = namespacesOf ns ∧
      (run "a, ,b" (.ok client)).requests = ["a", "b"] := by
  have h : ∀ s : String, (run s (.ok client)).requests = namespacesOf s := by
    intro s
    simp only [run, loop_requests, namespacesOf]
  refine ⟨h ns, ?_⟩
  rw [h]
  decide

/-- C5. A namespace whose request returns no quota object gets the banner and the line
`No quotas found in <ns>` and nothing else, and it is among the namespaces of the closing
line; the output of `run` is the output of the successive pieces followed by the closing
line; the closing line is absent exactly when no processed namespace returned an empty
list, and otherwise names those namespaces, in input order, joined by a comma and a
space. -/
theorem empty_namespace_summary (ns : String) (client : Clientset) :
    (∀ piece : String, TrimSpace piece ≠ "" → client (TrimSpace piece) = .ok [] →
      pieceOutput client piece =
        ["Checking namespace: " ++ TrimSpace piece ++ "\n",
          "No quotas found in " ++ TrimSpace piece ++ "\n"]) ∧
    (∀ piece ∈ Split ns, TrimSpace piece ≠ "" → client (TrimSpace piece) = .ok [] →
      TrimSpace piece ∈ (namespacesOf ns).filter (fun n => decide (client n = .ok []))) ∧
    (run ns (.ok client)).out =
      ((Split ns).map (pieceOutput client)).flatten ++
        summary ((namespacesOf ns).filter (fun n => decide (client n = .ok []))) ∧
    (summary ((namespacesOf ns).filter (fun n => decide (client n = .ok []))) = [] ↔
      (namespacesOf ns).filter (fun n => decide (client n = .ok [])) = []) ∧
    ((namespacesOf ns).filter (fun n => decide (client n = .ok [])) ≠ [] →
      summary ((namespacesOf ns).filter (fun n => decide (client n = .ok []))) =
        ["Namespaces with no quotas: " ++
          Join ((namespacesOf ns).filter (fun n => decide (client n = .ok []))) ", " ++
          "\n"]) := by
  refine ⟨?_, ?_, run_out ns client, ?_, ?_⟩
  · intro piece hne hok
    simp [pieceOutput, loopBody_empty client _ piece hne hok, LoopState.init]
  · intro piece hmem hne hok
    simp only [namespacesOf, List.mem_filter, List.mem_map, decide_eq_true_eq]
    exact ⟨⟨⟨piece, hmem, rfl⟩, hne⟩, hok⟩
  · constructor
    · intro h
      by_contra hne
      rw [summary_of_ne_nil _ hne] at h
      simp at h
    · intro h
      rw [h, summary_nil]
  · intro hne
    exact summary_of_ne_nil _ hne

theorem empty_namespace_summary_witness :
    pieceOutput exClient " dev " =
        ["Checking namespace: dev\n", "No quotas found in dev\n"] ∧
      (run "team-a, dev ,broken,qa" (.ok exClient)).out =
        ((Split "team-a, dev ,broken,qa").map (pieceOutput exClient)).flatten ++
          ["Namespaces with no quotas: dev, qa\n"] := by
  have h := empty_namespace_summary "team-a, dev ,broken,qa" exClient
  refine ⟨h.1 " dev " (by decide) (by decide), ?_⟩
  rw [h.2.2.1]
  decide

/-- C6. When the request for one namespace fails, `run` prints the banner and one error
line for it, leaves `emptyNs` as it was, prints for the namespaces before and after it what
it prints without the failing one, and returns no error. -/
theorem list_failure_recoverable (ns : String) (client : Clientset) (l1 l2 : List String)
    (piece e : String) (hsplit : Split ns = l1 ++ piece :: l2) (hne : TrimSpace piece ≠ "")
    (herr : client (TrimSpace piece) = .error e) :
    pieceOutput client piece =
        ["Checking namespace: " ++ TrimSpace piece ++ "\n",
          "ERROR getting quotas for " ++ TrimSpace piece ++ ": " ++ e ++ "\n"] ∧
      (run ns (.ok client)).out =
        (loop client LoopState.init l1).out ++ pieceOutput client piece ++
          (loop client LoopState.init l2).out ++
          summary (loop client LoopState.init (l1 ++ l2)).emptyNs ∧
      (loop client LoopState.init (l1 ++ l2)).out =
        (loop client LoopState.init l1).out ++ (loop client LoopState.init l2).out ∧
      (run ns (.ok client)).err = none ∧
      ∀ ns1 : String, (run ns1 (.ok client)).err = none := by
  have hp : loopBody client LoopState.init piece =
      { out := ["Checking namespace: " ++ TrimSpace piece ++ "\n",
          "ERROR getting quotas for " ++ TrimSpace piece ++ ": " ++ e ++ "\n"],
        emptyNs := [],
        requests := [TrimSpace piece] } := by
    simp [loopBody_error client _ piece e hne herr, LoopState.init]
  refine ⟨?_, ?_, ?_, rfl, fun _ => rfl⟩
  · simp [pieceOutput, hp]
  · simp only [run, hsplit]
    rw [loop_append_list client l1 (piece :: l2), loop_cons, loop_append_state client l2,
      loop_append_list client l1 l2]
    simp [pieceOutput, hp, List.append_assoc]
  · rw [loop_append_list]

theorem list_failure_recoverable_witness :
    (run "team-a,broken, dev" (.ok exClient)).out =
        (loop exClient LoopState.init ["team-a"]).out ++
          ["Checking namespace: broken\n", "ERROR getting quotas for broken: forbidden\n"] ++
          (loop exClient LoopState.init [" dev"]).out ++
          summary (loop exClient LoopState.init (["team-a"] ++ [" dev"])).emptyNs ∧
      (run "team-a,broken, dev" (.ok exClient)).err = none := by
  have h := list_failure_recoverable "team-a,broken, dev" exClient ["team-a"] [" dev"]
    "broken" "forbidden" (by decide) (by decide) (by decide)
  refine ⟨?_, h.2.2.2.1⟩
  rw [h.2.1, h.1]
  decide

/-! ## Rows -/

theorem padZero_one_digit :
    ∀ k : Fin 10, padZero 1 k.val = String.singleton (Nat.digitChar k.val) := by
  decide

theorem roundFrac_zero (d : Nat) : roundFrac 0 d = some (0, -1074) := by
  simp [roundFrac]

theorem round_zero (neg : Bool) (d : Nat) : F64.round neg 0 d = F64.fin neg 0 (-1074) := by
  simp [F64.round, roundFrac_zero]

theorem lt_zero_iff (x : F64) :
    F64.lt F64.zero x = true ↔
      x = F64.inf false ∨ ∃ m e, 0 < m ∧ x = F64.fin false m e := by
  cases x with
  | nan => simp [F64.lt, F64.zero]
  | inf t => cases t <;> simp [F64.lt, F64.zero]
  | fin t m e =>
    cases t
    · simp only [F64.lt, F64.zero, decide_eq_true_eq, Bool.false_eq_true, if_false]
      constructor
      · intro h
        refine Or.inr ⟨m, e, ?_, rfl⟩
        by_contra h0
        have : m = 0 := by omega
        subst this
        simp at h
      · rintro (h | ⟨m1, e1, hm, h⟩)
        · cases h
        · cases h
          have : 0 < exp2 (e - (-1074)) := by simp [exp2]
          simp only [Nat.cast_zero, zero_mul]
          positivity
    · simp only [F64.lt, F64.zero, decide_eq_true_eq, if_true, Bool.false_eq_true, if_false]
      constructor
      · intro h
        exfalso
        have h1 : (0 : Int) ≤ (exp2 (e - (-1074)) : Int) := by positivity
        have h2 : (0 : Int) ≤ (m : Int) := by positivity
        simp only [Nat.cast_zero, zero_mul] at h
        nlinarith
      · rintro (h | ⟨m1, e1, hm, h⟩)
        · cases h
        · cases h

/-- The percentage of a missing usage is the positive zero, whatever the hard limit. -/
theorem percentage_zeroValue (hardLimit : Quantity) :
    percentage Quantity.zeroValue hardLimit = F64.zero := by
  unfold percentage
  split
  · simp only [Quantity.zeroValue]
    split
    · rename_i h
      rcases (lt_zero_iff _).mp h with h1 | ⟨m, e, hm, h1⟩
      · rw [h1]
        decide
      · rw [h1]
        have hm0 : m ≠ 0 := by omega
        have h100 : F64.ofInt 100 = F64.fin false 7036874417766400 (-46) := by decide
        simp [F64.zero, F64.div, hm0, round_zero, h100, F64.mul]
    · rfl
  · rfl

/-- C7. For every quota object the rows are, in the order of the `range` statement, one row
for each entry of the hard mapping: the resource name, the normalized used string, the
normalized hard string and the percentage with one decimal followed by `%`, with two tab
characters between consecutive fields; the block of the quota is its header, its rows and an
empty line. In the example the rows are `cpu 2 4 50.0%` and `memory 2.00Gi 4Gi 50.0%`. -/
theorem row_format (quota : ResourceQuota) :
    rows quota = quota.Status.Hard.map (fun kv =>
        kv.1 ++ "\t\t" ++ normalizeDisplay (quota.Status.Used.index kv.1).str ++ "\t\t" ++
          normalizeDisplay kv.2.str ++ "\t\t" ++
          fmtF 1 (percentage (quota.Status.Used.index kv.1) kv.2) ++ "%\n") ∧
      (rows quota).length = quota.Status.Hard.length ∧
      printQuota quota = header quota ++ rows quota ++ ["\n"] ∧
      (∀ (s : Bool) (m : Nat) (e : Int),
        fmtF 1 (F64.fin s m e) =
          (if s then "-" else "") ++
            toString (rne (m * exp2 e * 10 ^ 1) (exp2 (-e)) / 10) ++ "." ++
            String.singleton (Nat.digitChar (rne (m * exp2 e * 10 ^ 1) (exp2 (-e)) % 10))) ∧
      rows exQuota = ["cpu\t\t2\t\t4\t\t50.0%\n", "memory\t\t2.00Gi\t\t4Gi\t\t50.0%\n"] := by
  refine ⟨rfl, by simp [rows], rfl, ?_, by decide⟩
  intro s m e
  have hlt : rne (m * exp2 e * 10 ^ 1) (exp2 (-e)) % 10 < 10 := Nat.mod_lt _ (by norm_num)
  have hp := padZero_one_digit ⟨_, hlt⟩
  simp only [fmtF, fixedDecimals, Nat.one_ne_zero, if_false, pow_one]
  simp only [pow_one] at hp
  rw [hp]
  simp [String.append_assoc]

/-- C8. A resource type of the hard mapping that has no entry in the used mapping is shown
with the used string `0` and the percentage `0.0%`, whatever the hard limit. -/
theorem row_missing_used (quota : ResourceQuota) (resourceName : String) (hardLimit : Quantity)
    (h : quota.Status.Used.lookup resourceName = none) :
    row quota resourceName hardLimit =
      resourceName ++ "\t\t" ++ "0" ++ "\t\t" ++ normalizeDisplay hardLimit.str ++ "\t\t" ++
        "0.0" ++ "%\n" := by
  have hidx : quota.Status.Used.index resourceName = Quantity.zeroValue := by
    simp [ResourceList.index, h]
  have h0 : normalizeDisplay Quantity.zeroValue.str = "0" := by decide
  have hf : fmtF 1 F64.zero = "0.0" := by decide
  simp only [row, hidx, percentage_zeroValue, h0, hf]

theorem row_missing_used_witness :
    exQuota.Status.Used.lookup "pods" = none ∧
      row exQuota "pods" ⟨"10", false, F64.ofInt 10⟩ =
        "pods" ++ "\t\t" ++ "0" ++ "\t\t" ++ normalizeDisplay "10" ++ "\t\t" ++ "0.0" ++ "%\n" :=
  ⟨by decide, row_missing_used exQuota "pods" ⟨"10", false, F64.ofInt 10⟩ (by decide)⟩

/-! ## Order of the output -/

theorem rows_perm_of_sameContent (q q1 : ResourceQuota) (h : sameContent q q1) :
    (rows q1).Perm (rows q) := by
  obtain ⟨_, _, hperm, hused⟩ := h
  have hrow : ∀ kv : String × Quantity, row q1 kv.1 kv.2 = row q kv.1 kv.2 := by
    intro kv
    simp only [row, hused kv.1]
  have : rows q1 = q1.Status.Hard.map (fun kv => row q kv.1 kv.2) := by
    simp only [rows, hrow]
  rw [this]
  exact (hperm.symm).map _

theorem printQuota_perm_of_sameContent (q q1 : ResourceQuota) (h : sameContent q q1) :
    (printQuota q1).Perm (printQuota q) := by
  have hh : header q1 = header q := by
    obtain ⟨h1, h2, _, _⟩ := h
    simp only [header, h1, h2]
  have hr := rows_perm_of_sameContent q q1 h
  simp only [printQuota, hh]
  exact (List.Perm.append_left _ hr).append_right _

theorem blocks_perm (items items1 : List ResourceQuota)
    (h : List.Forall₂ sameContent items items1) :
    ((items1.map printQuota).flatten).Perm ((items.map printQuota).flatten) := by
  induction h with
  | nil => exact List.Perm.refl _
  | cons hq _ ih =>
    simp only [List.map_cons, List.flatten_cons]
    exact (printQuota_perm_of_sameContent _ _ hq).append ih

theorem loopBody_sameResponse (client client1 : Clientset)
    (h : ∀ n, sameResponse (client n) (client1 n)) (piece : String) :
    (loopBody client1 LoopState.init piece).out.Perm (loopBody client LoopState.init piece).out ∧
      (loopBody client1 LoopState.init piece).emptyNs =
        (loopBody client LoopState.init piece).emptyNs ∧
      (loopBody client1 LoopState.init piece).requests =
        (loopBody client LoopState.init piece).requests := by
  by_cases hp : TrimSpace piece = ""
  · rw [loopBody_skip client _ piece hp, loopBody_skip client1 _ piece hp]
    exact ⟨List.Perm.refl _, rfl, rfl⟩
  · have hn := h (TrimSpace piece)
    cases hc : client (TrimSpace piece) with
    | error e =>
      cases hc1 : client1 (TrimSpace piece) with
      | error e1 =>
        rw [hc, hc1] at hn
        simp only [sameResponse] at hn
        subst hn
        rw [loopBody_error client _ piece e hp hc, loopBody_error client1 _ piece e hp hc1]
        exact ⟨List.Perm.refl _, rfl, rfl⟩
      | ok items1 =>
        rw [hc, hc1] at hn
        simp only [sameResponse] at hn
    | ok items =>
      cases hc1 : client1 (TrimSpace piece) with
      | error e1 =>
        rw [hc, hc1] at hn
        simp only [sameResponse] at hn
      | ok items1 =>
        rw [hc, hc1] at hn
        simp only [sameResponse] at hn
        by_cases hi : items = []
        · subst hi
          cases hn
          rw [loopBody_empty client _ piece hp hc, loopBody_empty client1 _ piece hp hc1]
          exact ⟨List.Perm.refl _, rfl, rfl⟩
        · have hi1 : items1 ≠ [] := by
            intro h0
            subst h0
            cases hn
            exact hi rfl
          rw [loopBody_items client _ piece items hp hc hi,
            loopBody_items client1 _ piece items1 hp hc1 hi1]
          exact ⟨List.Perm.append_left _ (blocks_perm items items1 hn), rfl, rfl⟩

theorem loop_sameResponse (client client1 : Clientset)
    (h : ∀ n, sameResponse (client n) (client1 n)) (l : List String) :
    (loop client1 LoopState.init l).out.Perm (loop client LoopState.init l).out ∧
      (loop client1 LoopState.init l).emptyNs = (loop client LoopState.init l).emptyNs ∧
      (loop client1 LoopState.init l).requests = (loop client LoopState.init l).requests := by
  induction l with
  | nil => exact ⟨List.Perm.refl _, rfl, rfl⟩
  | cons piece l ih =>
    obtain ⟨b1, b2, b3⟩ := loopBody_sameResponse client client1 h piece
    obtain ⟨i1, i2, i3⟩ := ih
    rw [loop_cons, loop_cons, loop_append_state client l, loop_append_state client1 l]
    exact ⟨b1.append i1, by rw [b2, i2], by rw [b3, i3]⟩

/-- Two runs on the same argument against clusters with the same content send the same
requests, return the same error and print the same strings, up to their order. -/
theorem run_sameResponse (ns : String) (client client1 : Clientset)
    (h : ∀ n, sameResponse (client n) (client1 n)) :
    (run ns (.ok client1)).out.Perm (run ns (.ok client)).out ∧
      (run ns (.ok client1)).requests = (run ns (.ok client)).requests ∧
      (run ns (.ok client1)).err = (run ns (.ok client)).err := by
  obtain ⟨h1, h2, h3⟩ := loop_sameResponse client client1 h (Split ns)
  refine ⟨?_, h3, rfl⟩
  show ((loop client1 LoopState.init (Split ns)).out ++
      summary (loop client1 LoopState.init (Split ns)).emptyNs).Perm
    ((loop client LoopState.init (Split ns)).out ++
      summary (loop client LoopState.init (Split ns)).emptyNs)
  rw [h2]
  exact h1.append_right _

/-- C9, as the code has it. The blocks of the pieces of the argument follow each other in
input order and the closing line comes last; the block of a namespace is its banner and the
blocks of its quota objects in the order of the returned list; the block of a quota object
is its header, one row for each entry of the hard mapping in the order in which `range`
visits them, and an empty line. Two quota objects with the same content have the same
header and the same rows up to their order, and two runs against clusters with the same
content send the same requests, return the same error and print the same strings up to
their order. -/
theorem output_order (ns : String) (client : Clientset) :
    (run ns (.ok client)).out =
      ((Split ns).map (pieceOutput client)).flatten ++
        summary ((namespacesOf ns).filter (fun n => decide (client n = .ok []))) ∧
    (∀ (piece : String) (items : List ResourceQuota), TrimSpace piece ≠ "" →
      client (TrimSpace piece) = .ok items → items ≠ [] →
      pieceOutput client piece =
        ["Checking namespace: " ++ TrimSpace piece ++ "\n"] ++
          (items.map printQuota).flatten) ∧
    (∀ q : ResourceQuota,
      printQuota q = header q ++ q.Status.Hard.map (fun kv => row q kv.1 kv.2) ++ ["\n"]) ∧
    (∀ q q1 : ResourceQuota, sameContent q q1 →
      header q1 = header q ∧ (rows q1).Perm (rows q) ∧
        (printQuota q1).Perm (printQuota q)) ∧
    ∀ client1 : Clientset, (∀ n, sameResponse (client n) (client1 n)) →
      (run ns (.ok client1)).out.Perm (run ns (.ok client)).out ∧
        (run ns (.ok client1)).requests = (run ns (.ok client)).requests ∧
        (run ns (.ok client1)).err = (run ns (.ok client)).err := by
  refine ⟨run_out ns client, ?_, fun _ => rfl, ?_, ?_⟩
  · intro piece items hne hok hitems
    simp [pieceOutput, loopBody_items client _ piece items hne hok hitems, LoopState.init]
  · intro q q1 h
    have hh : header q1 = header q := by
      obtain ⟨h1, h2, _, _⟩ := h
      simp only [header, h1, h2]
    exact ⟨hh, rows_perm_of_sameContent q q1 h, printQuota_perm_of_sameContent q q1 h⟩
  · intro client1 h
    exact run_sameResponse ns client client1 h

theorem sameResponse_examples (n : String) : sameResponse (exClient n) (exClientSwapped n) := by
  have hs : sameContent exQuota exQuotaSwapped :=
    ⟨rfl, rfl, List.Perm.swap _ _ _, fun _ => rfl⟩
  by_cases h : n = "team-a"
  · simp only [exClient, exClientSwapped, h, if_true, sameResponse]
    exact List.Forall₂.cons hs List.Forall₂.nil
  · by_cases h1 : n = "broken"
    · have hb : ¬ ("broken" : String) = "team-a" := by decide
      simp only [exClient, exClientSwapped, h1, hb, if_true, if_false, sameResponse]
    · simp only [exClient, exClientSwapped, h, h1, if_false, sameResponse]
      exact List.Forall₂.nil

theorem output_order_witness :
    sameContent exQuota exQuotaSwapped ∧
      pieceOutput exClient "team-a" =
        ["Checking namespace: team-a\n"] ++ ([exQuota].map printQuota).flatten ∧
      (rows exQuotaSwapped).Perm (rows exQuota) ∧
      (run "team-a,broken" (.ok exClientSwapped)).out.Perm
        (run "team-a,broken" (.ok exClient)).out := by
  have hs : sameContent exQuota exQuotaSwapped :=
    ⟨rfl, rfl, List.Perm.swap _ _ _, fun _ => rfl⟩
  have h := output_order "team-a,broken" exClient
  exact ⟨hs, h.2.1 "team-a" [exQuota] (by decide) (by decide) (by decide),
    (h.2.2.2.1 exQuota exQuotaSwapped hs).2.1,
    (h.2.2.2.2 exClientSwapped sameResponse_examples).1⟩

/-- C9, as the claim states it, fails: the two clusters answer every request with the same
content, the entries of the hard mapping of one quota object being visited in a different
order, and the two runs on the same argument print the rows in a different order. -/
theorem output_order_counterexample :
    (∀ n : String, sameResponse (exClient n) (exClientSwapped n)) ∧
    (run "team-a" (.ok exClient)).out ≠ (run "team-a" (.ok exClientSwapped)).out ∧
    rows exQuota = ["cpu\t\t2\t\t4\t\t50.0%\n", "memory\t\t2.00Gi\t\t4Gi\t\t50.0%\n"] ∧
    rows exQuotaSwapped = ["memory\t\t2.00Gi\t\t4Gi\t\t50.0%\n", "cpu\t\t2\t\t4\t\t50.0%\n"] := by
  exact ⟨sameResponse_examples, by decide, by decide, by decide⟩

/-! ## Rounding to `float64` -/

theorem exp2_pos (k : Int) : 0 < exp2 k := by
  simp [exp2]

theorem exp2_of_nonneg (k : Int) (h : 0 ≤ k) : ((exp2 k : Nat) : ℚ) = (2 : ℚ) ^ k := by
  obtain ⟨j, rfl⟩ := Int.eq_ofNat_of_zero_le h
  simp [exp2]

theorem exp2_of_nonpos (k : Int) (h : k ≤ 0) : exp2 k = 1 := by
  have : k.toNat = 0 := Int.toNat_eq_zero.mpr h
  simp [exp2, this]

/-- The two natural powers `exp2 k` and `exp2 (-k)` have the quotient `2 ^ k`. -/
theorem exp2_ratio (k : Int) :
    ((exp2 k : Nat) : ℚ) / ((exp2 (-k) : Nat) : ℚ) = (2 : ℚ) ^ k := by
  rcases le_total 0 k with h | h
  · rw [exp2_of_nonneg k h, exp2_of_nonpos (-k) (by omega)]
    simp
  · rw [exp2_of_nonpos k h, exp2_of_nonneg (-k) (by omega)]
    simp [zpow_neg]

theorem bitLen_spec (fuel : Nat) : ∀ n : Nat, n ≤ fuel → 0 < n →
    2 ^ (bitLen fuel n - 1) ≤ n ∧ n < 2 ^ bitLen fuel n ∧ 0 < bitLen fuel n := by
  induction fuel with
  | zero =>
    intro n h1 h2
    omega
  | succ fuel ih =>
    intro n h1 h2
    have hn : n ≠ 0 := by omega
    simp only [bitLen, hn, if_false]
    by_cases h : n / 2 = 0
    · have hn1 : n = 1 := by omega
      subst hn1
      cases fuel <;> simp [bitLen]
    · have hle : n / 2 ≤ fuel := by omega
      obtain ⟨ih1, ih2, ih3⟩ := ih (n / 2) hle (by omega)
      refine ⟨?_, ?_, by omega⟩
      · have : bitLen fuel (n / 2) + 1 - 1 = (bitLen fuel (n / 2) - 1) + 1 := by omega
        rw [this, pow_succ]
        omega
      · rw [pow_succ]
        omega

theorem rne_alt (n d : Nat) :
    rne n d = if 2 * (n % d) < d then n / d else if d < 2 * (n % d) then n / d + 1
      else if n / d % 2 = 0 then n / d else n / d + 1 := rfl

/-- The integer `rne n d` is within one half of `n / d`. -/
theorem rne_spec (n d : Nat) (hd : 0 < d) :
    |((rne n d : Nat) : ℚ) - (n : ℚ) / d| ≤ 1 / 2 := by
  have hdq : (0 : ℚ) < d := by exact_mod_cast hd
  have hdiv : (n : ℚ) = (d : ℚ) * ((n / d : Nat) : ℚ) + ((n % d : Nat) : ℚ) := by
    exact_mod_cast (Nat.div_add_mod n d).symm
  have hx : (n : ℚ) / d = ((n / d : Nat) : ℚ) + ((n % d : Nat) : ℚ) / d := by
    rw [hdiv]
    field_simp
    ring
  have hr : ((n % d : Nat) : ℚ) < d := by exact_mod_cast Nat.mod_lt n hd
  have hr0 : (0 : ℚ) ≤ ((n % d : Nat) : ℚ) := by positivity
  rw [rne_alt, hx]
  split_ifs with h1 h2 h3
  · have : (2 : ℚ) * ((n % d : Nat) : ℚ) < d := by exact_mod_cast h1
    rw [abs_le]
    constructor
    · have : ((n % d : Nat) : ℚ) / d ≤ 1 / 2 := by
        rw [div_le_iff₀ hdq]; linarith
      linarith
    · have : (0 : ℚ) ≤ ((n % d : Nat) : ℚ) / d := by positivity
      linarith
  · have : (d : ℚ) < 2 * ((n % d : Nat) : ℚ) := by exact_mod_cast h2
    have h5 : (1 : ℚ) / 2 ≤ ((n % d : Nat) : ℚ) / d := by
      rw [le_div_iff₀ hdq]; linarith
    have h6 : ((n % d : Nat) : ℚ) / d ≤ 1 := by
      rw [div_le_iff₀ hdq]; linarith
    rw [abs_le]
    push_cast
    constructor <;> linarith
  · have h4 : 2 * (n % d) = d := by omega
    have h5 : ((n % d : Nat) : ℚ) / d = 1 / 2 := by
      have : (2 : ℚ) * ((n % d : Nat) : ℚ) = d := by exact_mod_cast h4
      rw [div_eq_iff (ne_of_gt hdq)]; linarith
    rw [h5, abs_le]
    constructor <;> linarith
  · have h4 : 2 * (n % d) = d := by omega
    have h5 : ((n % d : Nat) : ℚ) / d = 1 / 2 := by
      have : (2 : ℚ) * ((n % d : Nat) : ℚ) = d := by exact_mod_cast h4
      rw [div_eq_iff (ne_of_gt hdq)]; linarith
    rw [h5, abs_le]
    push_cast
    constructor <;> linarith

/-- No integer is nearer to `n / d` than `rne n d`. -/
theorem rne_nearest (n d m : Nat) (hd : 0 < d) :
    |((rne n d : Nat) : ℚ) - (n : ℚ) / d| ≤ |(m : ℚ) - (n : ℚ) / d| := by
  have hs := rne_spec n d hd
  by_cases h : m = rne n d
  · rw [h]
  · have h1 : (1 : ℚ) ≤ |(m : ℚ) - ((rne n d : Nat) : ℚ)| := by
      have h2 : (1 : Int) ≤ |(m : Int) - ((rne n d : Nat) : Int)| := by
        have : (m : Int) - ((rne n d : Nat) : Int) ≠ 0 := by omega
        exact Int.one_le_abs this
      have h3 : ((1 : Int) : ℚ) ≤ ((|(m : Int) - ((rne n d : Nat) : Int)| : Int) : ℚ) := by
        exact_mod_cast h2
      simpa using h3
    have h4 : |(m : ℚ) - ((rne n d : Nat) : ℚ)| ≤
        |(m : ℚ) - (n : ℚ) / d| + |((rne n d : Nat) : ℚ) - (n : ℚ) / d| := by
      have := abs_sub_le (m : ℚ) ((n : ℚ) / d) ((rne n d : Nat) : ℚ)
      rw [abs_sub_comm ((n : ℚ) / d) ((rne n d : Nat) : ℚ)] at this
      exact this
    linarith

/-- When `n / d` lies halfway between two integers, `rne n d` is the even one. -/
theorem rne_tie_even (n d : Nat) (htie : 2 * (n % d) = d) : rne n d % 2 = 0 := by
  rw [rne_alt, if_neg (by omega), if_neg (by omega)]
  split_ifs with h
  · exact h
  · omega

theorem rne_exact (c d : Nat) (hd : 0 < d) : rne (c * d) d = c := by
  have h1 : c * d / d = c := Nat.mul_div_cancel c hd
  have h2 : c * d % d = 0 := Nat.mul_mod_left c d
  simp [rne_alt, h1, h2, hd]

/-- A natural number `c` with `c - 1/2 < n / d` is at most `rne n d`. -/
theorem le_rne (n d c : Nat) (hd : 0 < d) (h : (c : ℚ) - 1 / 2 < (n : ℚ) / d) :
    c ≤ rne n d := by
  have hs := rne_spec n d hd
  rw [abs_le] at hs
  have h1 : (c : ℚ) - 1 < ((rne n d : Nat) : ℚ) := by linarith [hs.1]
  have h2 : ((c : Int) : ℚ) - 1 < (((rne n d : Nat) : Int) : ℚ) := by exact_mod_cast h1
  have h3 : (c : Int) - 1 < ((rne n d : Nat) : Int) := by exact_mod_cast h2
  omega

/-- A natural number `c` with `n / d < c + 1/2` is at least `rne n d`. -/
theorem rne_le (n d c : Nat) (hd : 0 < d) (h : (n : ℚ) / d < (c : ℚ) + 1 / 2) :
    rne n d ≤ c := by
  have hs := rne_spec n d hd
  rw [abs_le] at hs
  have h1 : ((rne n d : Nat) : ℚ) < (c : ℚ) + 1 := by linarith [hs.2]
  have h2 : (((rne n d : Nat) : Int) : ℚ) < ((c : Int) : ℚ) + 1 := by exact_mod_cast h1
  have h3 : ((rne n d : Nat) : Int) < (c : Int) + 1 := by exact_mod_cast h2
  omega

/-- The value `rne n d` depends on the quotient `n / d` only. -/
theorem rne_congr (a b c d : Nat) (hb : 0 < b) (hd : 0 < d)
    (h : (a : ℚ) / b = (c : ℚ) / d) : rne a b = rne c d := by
  have hbq : (0 : ℚ) < b := by exact_mod_cast hb
  have hdq : (0 : ℚ) < d := by exact_mod_cast hd
  have hf : a / b = c / d := by
    have h1 := Nat.floor_div_eq_div (α := ℚ) a b
    have h2 := Nat.floor_div_eq_div (α := ℚ) c d
    rw [← h1, ← h2, h]
  have ha : (a : ℚ) = (b : ℚ) * ((a / b : Nat) : ℚ) + ((a % b : Nat) : ℚ) := by
    exact_mod_cast (Nat.div_add_mod a b).symm
  have hc : (c : ℚ) = (d : ℚ) * ((c / d : Nat) : ℚ) + ((c % d : Nat) : ℚ) := by
    exact_mod_cast (Nat.div_add_mod c d).symm
  have hr : ((a % b : Nat) : ℚ) / b = ((c % d : Nat) : ℚ) / d := by
    have e1 : ((a % b : Nat) : ℚ) / b = (a : ℚ) / b - ((a / b : Nat) : ℚ) := by
      rw [eq_sub_iff_add_eq, div_add' _ _ _ (ne_of_gt hbq), div_left_inj' (ne_of_gt hbq)]
      linarith
    have e2 : ((c % d : Nat) : ℚ) / d = (c : ℚ) / d - ((c / d : Nat) : ℚ) := by
      rw [eq_sub_iff_add_eq, div_add' _ _ _ (ne_of_gt hdq), div_left_inj' (ne_of_gt hdq)]
      linarith
    rw [e1, e2, h, hf]
  have k1 : 2 * (a % b) < b ↔ 2 * (c % d) < d := by
    have l1 : 2 * (a % b) < b ↔ (2 : ℚ) * (((a % b : Nat) : ℚ) / b) < 1 := by
      rw [← mul_div_assoc, div_lt_one hbq]
      exact_mod_cast Iff.rfl
    have l2 : 2 * (c % d) < d ↔ (2 : ℚ) * (((c % d : Nat) : ℚ) / d) < 1 := by
      rw [← mul_div_assoc, div_lt_one hdq]
      exact_mod_cast Iff.rfl
    rw [l1, l2, hr]
  have k2 : b < 2 * (a % b) ↔ d < 2 * (c % d) := by
    have l1 : b < 2 * (a % b) ↔ (1 : ℚ) < 2 * (((a % b : Nat) : ℚ) / b) := by
      rw [← mul_div_assoc, one_lt_div hbq]
      exact_mod_cast Iff.rfl
    have l2 : d < 2 * (c % d) ↔ (1 : ℚ) < 2 * (((c % d : Nat) : ℚ) / d) := by
      rw [← mul_div_assoc, one_lt_div hdq]
      exact_mod_cast Iff.rfl
    rw [l1, l2, hr]
  simp only [rne_alt, hf, k1, k2]

theorem two_zpow_pos (k : Int) : (0 : ℚ) < (2 : ℚ) ^ k := zpow_pos (by norm_num) k

theorem zpow_lt_two (a b : Int) (h : (2 : ℚ) ^ a < (2 : ℚ) ^ b) : a < b :=
  (zpow_lt_zpow_iff_right₀ (by norm_num : (1 : ℚ) < 2)).mp h

theorem bitLen_zpow (n : Nat) (hn : 0 < n) :
    (2 : ℚ) ^ ((bitLen n n : Int) - 1) ≤ n ∧ (n : ℚ) < (2 : ℚ) ^ (bitLen n n : Int) := by
  obtain ⟨h1, h2, h3⟩ := bitLen_spec n n le_rfl hn
  constructor
  · have e : ((bitLen n n : Int) - 1) = ((bitLen n n - 1 : Nat) : Int) := by omega
    rw [e, zpow_natCast]
    exact_mod_cast h1
  · rw [zpow_natCast]
    exact_mod_cast h2

/-- The integer `ilog2 n d` is the binary exponent of `n / d`. -/
theorem ilog2_spec (n d : Nat) (hn : 0 < n) (hd : 0 < d) :
    (2 : ℚ) ^ ilog2 n d ≤ (n : ℚ) / d ∧ (n : ℚ) / d < (2 : ℚ) ^ (ilog2 n d + 1) := by
  obtain ⟨n1, n2⟩ := bitLen_zpow n hn
  obtain ⟨d1, d2⟩ := bitLen_zpow d hd
  have hnq : (0 : ℚ) < n := by exact_mod_cast hn
  have hdq : (0 : ℚ) < d := by exact_mod_cast hd
  obtain ⟨t, ht⟩ : ∃ t : Int, t = (bitLen n n : Int) - (bitLen d d : Int) := ⟨_, rfl⟩
  have hdef : ilog2 n d = if d * exp2 t ≤ n * exp2 (-t) then t else t - 1 := by
    rw [ht]; rfl
  have key : d * exp2 t ≤ n * exp2 (-t) ↔ (2 : ℚ) ^ t ≤ (n : ℚ) / d := by
    have hp : (0 : ℚ) < ((exp2 (-t) : Nat) : ℚ) := by exact_mod_cast exp2_pos (-t)
    rw [← exp2_ratio t, div_le_div_iff₀ hp hdq]
    constructor
    · intro h
      have : ((d * exp2 t : Nat) : ℚ) ≤ ((n * exp2 (-t) : Nat) : ℚ) := by exact_mod_cast h
      push_cast at this
      linarith
    · intro h
      have : ((d * exp2 t : Nat) : ℚ) ≤ ((n * exp2 (-t) : Nat) : ℚ) := by
        push_cast; linarith
      exact_mod_cast this
  have up : (n : ℚ) / d < (2 : ℚ) ^ (t + 1) := by
    have e : (2 : ℚ) ^ (t + 1) =
        (2 : ℚ) ^ (bitLen n n : Int) / (2 : ℚ) ^ ((bitLen d d : Int) - 1) := by
      rw [← zpow_sub₀ (by norm_num : (2 : ℚ) ≠ 0)]
      congr 1
      omega
    rw [e, div_lt_div_iff₀ hdq (two_zpow_pos _)]
    calc (n : ℚ) * (2 : ℚ) ^ ((bitLen d d : Int) - 1) ≤ (n : ℚ) * d :=
          mul_le_mul_of_nonneg_left d1 hnq.le
      _ < (2 : ℚ) ^ (bitLen n n : Int) * d := mul_lt_mul_of_pos_right n2 hdq
  have low : (2 : ℚ) ^ (t - 1) < (n : ℚ) / d := by
    have e : (2 : ℚ) ^ (t - 1) =
        (2 : ℚ) ^ ((bitLen n n : Int) - 1) / (2 : ℚ) ^ (bitLen d d : Int) := by
      rw [← zpow_sub₀ (by norm_num : (2 : ℚ) ≠ 0)]
      congr 1
      omega
    rw [e, div_lt_div_iff₀ (two_zpow_pos _) hdq]
    calc (2 : ℚ) ^ ((bitLen n n : Int) - 1) * d ≤ (n : ℚ) * d :=
          mul_le_mul_of_nonneg_right n1 hdq.le
      _ < (n : ℚ) * (2 : ℚ) ^ (bitLen d d : Int) := mul_lt_mul_of_pos_left d2 hnq
  rw [hdef]
  split_ifs with h
  · exact ⟨key.mp h, up⟩
  · refine ⟨low.le, ?_⟩
    have h1 : ¬ (2 : ℚ) ^ t ≤ (n : ℚ) / d := fun h1 => h (key.mpr h1)
    have h2 : t - 1 + 1 = t := by omega
    rw [h2]
    exact lt_of_not_le h1

theorem ilog2_unique (n d : Nat) (hn : 0 < n) (hd : 0 < d) (e : Int)
    (h1 : (2 : ℚ) ^ e ≤ (n : ℚ) / d) (h2 : (n : ℚ) / d < (2 : ℚ) ^ (e + 1)) :
    ilog2 n d = e := by
  obtain ⟨s1, s2⟩ := ilog2_spec n d hn hd
  have a := zpow_lt_two _ _ (lt_of_le_of_lt s1 h2)
  have b := zpow_lt_two _ _ (lt_of_le_of_lt h1 s2)
  omega

theorem roundFrac_ratio (n d : Nat) (u : Int) (hd : 0 < d) :
    ((n * exp2 (-u) : Nat) : ℚ) / ((d * exp2 u : Nat) : ℚ) =
      (n : ℚ) / d * (2 : ℚ) ^ (-u) := by
  have h := exp2_ratio (-u)
  rw [neg_neg] at h
  push_cast
  rw [← h]
  have h1 : ((exp2 u : Nat) : ℚ) ≠ 0 := by exact_mod_cast (exp2_pos u).ne'
  have h2 : (d : ℚ) ≠ 0 := by exact_mod_cast hd.ne'
  field_simp

/-- The result of `roundFrac` in terms of the exponent `u` of the last place and of the
rounded significand `M`. -/
theorem roundFrac_eq (n d : Nat) (hn : 0 < n) (u : Int) (M : Nat)
    (hu : u = max (ilog2 n d) (-1022) - 52) (hM : M = rne (n * exp2 (-u)) (d * exp2 u)) :
    roundFrac n d =
      if M = 2 ^ 53 then (if u + 1 ≤ 971 then some (2 ^ 52, u + 1) else none)
      else (if u ≤ 971 then some (M, u) else none) := by
  subst hu hM
  unfold roundFrac
  simp only [hn.ne', if_false]
  split_ifs <;> simp_all

theorem cast_two_pow (j : Nat) (z : Int) (hz : z = (j : Int)) :
    (((2 : Nat) ^ j : Nat) : ℚ) = (2 : ℚ) ^ z := by
  rw [hz, zpow_natCast]; push_cast; rfl

/-- Rounding does not go below a representable value that the fraction exceeds by less
than half a unit in the last place. -/
theorem roundFrac_ge (n d c : Nat) (k : Int) (hn : 0 < n) (hd : 0 < d)
    (hc1 : 2 ^ 52 < c) (hc2 : c ≤ 2 ^ 53) (hk : -1074 ≤ k)
    (h : ((c : ℚ) - 1 / 2) * (2 : ℚ) ^ k < (n : ℚ) / d) :
    roundFrac n d = none ∨
      ∃ m e, roundFrac n d = some (m, e) ∧
        (c : ℚ) * (2 : ℚ) ^ k ≤ (m : ℚ) * (2 : ℚ) ^ e := by
  obtain ⟨s1, s2⟩ := ilog2_spec n d hn hd
  obtain ⟨E, hE⟩ : ∃ E : Int, E = ilog2 n d := ⟨_, rfl⟩
  rw [← hE] at s1 s2
  have h2 : (0 : ℚ) < (2 : ℚ) ^ k := two_zpow_pos k
  have hcq : (2 : ℚ) ^ (52 : Int) + 1 ≤ (c : ℚ) := by
    have h0 : 2 ^ 52 + 1 ≤ c := hc1
    have h1 : (((2 ^ 52 + 1 : Nat)) : ℚ) ≤ (c : ℚ) := by exact_mod_cast h0
    have h3 := cast_two_pow 52 52 rfl
    push_cast at h1 h3 ⊢
    linarith
  have hcq2 : (c : ℚ) ≤ (2 : ℚ) ^ (53 : Int) := by
    have h1 : (c : ℚ) ≤ (((2 ^ 53 : Nat)) : ℚ) := by exact_mod_cast hc2
    have h3 := cast_two_pow 53 53 rfl
    push_cast at h1 h3 ⊢
    linarith
  have hEk : 52 + k ≤ E := by
    have : (2 : ℚ) ^ (52 + k) < (2 : ℚ) ^ (E + 1) := by
      calc (2 : ℚ) ^ (52 + k) = (2 : ℚ) ^ (52 : Int) * (2 : ℚ) ^ k :=
            zpow_add₀ (by norm_num) _ _
        _ ≤ ((c : ℚ) - 1 / 2) * (2 : ℚ) ^ k :=
            mul_le_mul_of_nonneg_right (by linarith) h2.le
        _ < (n : ℚ) / d := h
        _ < (2 : ℚ) ^ (E + 1) := s2
    have := zpow_lt_two _ _ this
    omega
  obtain ⟨u, hu⟩ : ∃ u : Int, u = max (ilog2 n d) (-1022) - 52 := ⟨_, rfl⟩
  have hu1 : u = E - 52 := by
    rw [hu, ← hE, max_eq_left (by omega)]
  obtain ⟨M, hM⟩ : ∃ M : Nat, M = rne (n * exp2 (-u)) (d * exp2 u) := ⟨_, rfl⟩
  have hdu : 0 < d * exp2 u := Nat.mul_pos hd (exp2_pos u)
  have hratio := roundFrac_ratio n d u hd
  have hu2 : (0 : ℚ) < (2 : ℚ) ^ u := two_zpow_pos u
  have hval : (c : ℚ) * (2 : ℚ) ^ k ≤ (M : ℚ) * (2 : ℚ) ^ u := by
    rcases eq_or_lt_of_le hEk with heq | hlt
    · have huk : u = k := by omega
      have hcM : c ≤ M := by
        rw [hM]
        apply le_rne _ _ _ hdu
        rw [hratio, huk, zpow_neg, ← div_eq_mul_inv, lt_div_iff₀ h2]
        exact h
      rw [huk]
      have : (c : ℚ) ≤ (M : ℚ) := by exact_mod_cast hcM
      exact mul_le_mul_of_nonneg_right this h2.le
    · have hM52 : 2 ^ 52 ≤ M := by
        rw [hM]
        apply le_rne _ _ _ hdu
        rw [hratio]
        have h5 : (2 : ℚ) ^ (52 : Int) ≤ (n : ℚ) / d * (2 : ℚ) ^ (-u) := by
          calc (2 : ℚ) ^ (52 : Int) = (2 : ℚ) ^ E * (2 : ℚ) ^ (-u) := by
                rw [← zpow_add₀ (by norm_num : (2 : ℚ) ≠ 0)]
                congr 1
                omega
            _ ≤ (n : ℚ) / d * (2 : ℚ) ^ (-u) :=
                mul_le_mul_of_nonneg_right s1 (two_zpow_pos _).le
        have h3 := cast_two_pow 52 52 rfl
        rw [h3]
        linarith
      have hM52q : (2 : ℚ) ^ (52 : Int) ≤ (M : ℚ) := by
        have h1 : (((2 ^ 52 : Nat)) : ℚ) ≤ (M : ℚ) := by exact_mod_cast hM52
        rw [cast_two_pow 52 52 rfl] at h1
        exact h1
      calc (c : ℚ) * (2 : ℚ) ^ k ≤ (2 : ℚ) ^ (53 : Int) * (2 : ℚ) ^ k :=
            mul_le_mul_of_nonneg_right hcq2 h2.le
        _ = (2 : ℚ) ^ (52 : Int) * (2 : ℚ) ^ (k + 1) := by
            rw [← zpow_add₀ (by norm_num : (2 : ℚ) ≠ 0),
              ← zpow_add₀ (by norm_num : (2 : ℚ) ≠ 0)]
            congr 1
            omega
        _ ≤ (2 : ℚ) ^ (52 : Int) * (2 : ℚ) ^ u :=
            mul_le_mul_of_nonneg_left
              (zpow_le_zpow_right₀ (by norm_num) (by omega)) (two_zpow_pos _).le
        _ ≤ (M : ℚ) * (2 : ℚ) ^ u := mul_le_mul_of_nonneg_right hM52q hu2.le
  rw [roundFrac_eq n d hn u M hu hM]
  by_cases hM53 : M = 2 ^ 53
  · rw [if_pos hM53]
    by_cases hle : u + 1 ≤ 971
    · rw [if_pos hle]
      right
      refine ⟨2 ^ 52, u + 1, rfl, ?_⟩
      have e1 : (M : ℚ) = (2 : ℚ) ^ (53 : Int) := by
        rw [hM53, ← cast_two_pow 53 53 rfl]
      have e2 : (((2 ^ 52 : Nat)) : ℚ) = (2 : ℚ) ^ (52 : Int) := cast_two_pow 52 52 rfl
      rw [e2]
      calc (c : ℚ) * (2 : ℚ) ^ k ≤ (M : ℚ) * (2 : ℚ) ^ u := hval
        _ = (2 : ℚ) ^ (52 : Int) * (2 : ℚ) ^ (u + 1) := by
            rw [e1, ← zpow_add₀ (by norm_num : (2 : ℚ) ≠ 0),
              ← zpow_add₀ (by norm_num : (2 : ℚ) ≠ 0)]
            congr 1
            omega
    · rw [if_neg hle]
      exact Or.inl rfl
  · rw [if_neg hM53]
    by_cases hle : u ≤ 971
    · rw [if_pos hle]
      exact Or.inr ⟨M, u, rfl, hval⟩
    · rw [if_neg hle]
      exact Or.inl rfl

theorem lt_fin_iff (m m1 : Nat) (e e1 : Int) :
    F64.lt (F64.fin false m e) (F64.fin false m1 e1) = true ↔
      (m : ℚ) * (2 : ℚ) ^ e < (m1 : ℚ) * (2 : ℚ) ^ e1 := by
  have hr := exp2_ratio (e - e1)
  rw [neg_sub] at hr
  have hb : (0 : ℚ) < ((exp2 (e1 - e) : Nat) : ℚ) := by exact_mod_cast exp2_pos _
  have h1 : (m : ℚ) * (2 : ℚ) ^ e < (m1 : ℚ) * (2 : ℚ) ^ e1 ↔
      (m : ℚ) * (2 : ℚ) ^ (e - e1) < (m1 : ℚ) := by
    rw [zpow_sub₀ (by norm_num : (2 : ℚ) ≠ 0), ← mul_div_assoc,
      div_lt_iff₀ (two_zpow_pos e1)]
  rw [h1, ← hr, ← mul_div_assoc, div_lt_iff₀ hb]
  simp only [F64.lt, Bool.false_eq_true, if_false, decide_eq_true_eq]
  constructor
  · intro h
    exact_mod_cast h
  · intro h
    exact_mod_cast h

theorem round_none (s : Bool) (n d : Nat) (h : roundFrac n d = none) :
    F64.round s n d = F64.inf s := by
  simp only [F64.round, h]

theorem round_some (s : Bool) (n d m : Nat) (e : Int) (h : roundFrac n d = some (m, e)) :
    F64.round s n d = F64.fin s m e := by
  simp only [F64.round, h]

theorem ofInt_100 : F64.ofInt 100 = F64.fin false 7036874417766400 (-46) := by decide

/-- The product with 100 of a value above `1 + 2 ^ (-52)` is above 100. -/
theorem mul_100_gt (m : Nat) (e : Int)
    (h : ((2 ^ 52 + 1 : Nat) : ℚ) * (2 : ℚ) ^ (-52 : Int) ≤ (m : ℚ) * (2 : ℚ) ^ e) :
    F64.lt (F64.ofInt 100) (F64.mul (F64.fin false m e) (F64.ofInt 100)) = true := by
  rw [ofInt_100]
  simp only [F64.mul, Bool.xor_false]
  have hpos : (0 : ℚ) < (m : ℚ) * (2 : ℚ) ^ e := by
    refine lt_of_lt_of_le ?_ h
    positivity
  have hm : 0 < m := by
    rcases Nat.eq_zero_or_pos m with h0 | h0
    · rw [h0] at hpos
      simp at hpos
    · exact h0
  have hn : 0 < m * 7036874417766400 * exp2 (e + -46) :=
    Nat.mul_pos (Nat.mul_pos hm (by norm_num)) (exp2_pos _)
  have hd : 0 < exp2 (-(e + -46)) := exp2_pos _
  have hratio : ((m * 7036874417766400 * exp2 (e + -46) : Nat) : ℚ) /
      ((exp2 (-(e + -46)) : Nat) : ℚ) = (m : ℚ) * (2 : ℚ) ^ e * 100 := by
    push_cast
    rw [mul_div_assoc, exp2_ratio, zpow_add₀ (by norm_num : (2 : ℚ) ≠ 0)]
    norm_num
    ring
  have hx : (((7036874417766401 : Nat) : ℚ) - 1 / 2) * (2 : ℚ) ^ (-46 : Int) <
      ((m * 7036874417766400 * exp2 (e + -46) : Nat) : ℚ) /
        ((exp2 (-(e + -46)) : Nat) : ℚ) := by
    rw [hratio]
    have : ((2 ^ 52 + 1 : Nat) : ℚ) * (2 : ℚ) ^ (-52 : Int) * 100 ≤
        (m : ℚ) * (2 : ℚ) ^ e * 100 := by linarith
    refine lt_of_lt_of_le ?_ this
    norm_num
  rcases roundFrac_ge _ _ 7036874417766401 (-46) hn hd (by norm_num) (by norm_num)
      (by norm_num) hx with h0 | ⟨m1, e1, h1, h2⟩
  · rw [round_none _ _ _ h0]
    rfl
  · rw [round_some _ _ _ _ _ h1, lt_fin_iff]
    refine lt_of_lt_of_le ?_ h2
    norm_num

/-- For canonical `float64` values `0 < H < U`, the percentage `(U / H) * 100` is above
100. -/
theorem mul_div_gt_100 (U H : F64) (hU : U.canonical = true) (hH : H.canonical = true)
    (hpos : F64.lt F64.zero H = true) (hlt : F64.lt H U = true) :
    F64.lt (F64.ofInt 100) (F64.mul (F64.div U H) (F64.ofInt 100)) = true := by
  rcases (lt_zero_iff H).mp hpos with hH1 | ⟨mH, eH, hmH, hH1⟩
  · subst hH1
    cases U <;> simp [F64.lt] at hlt
  · subst hH1
    cases U with
    | nan => simp [F64.lt] at hlt
    | inf t =>
      cases t
      · rw [ofInt_100]
        simp [F64.div, F64.mul, F64.lt]
      · simp [F64.lt] at hlt
    | fin t mU eU =>
      cases t
      · rw [lt_fin_iff] at hlt
        simp only [F64.canonical, Bool.and_eq_true, Bool.or_eq_true, decide_eq_true_eq]
          at hU hH
        obtain ⟨⟨hU1, hU2⟩, hU3⟩ := hU
        obtain ⟨⟨hH1, hH2⟩, hH3⟩ := hH
        have hmHq : (0 : ℚ) < (mH : ℚ) := by exact_mod_cast hmH
        have hee : eH ≤ eU := by
          by_contra hcon
          have hcon1 : eU + 1 ≤ eH := by omega
          have hmH52 : 2 ^ 52 ≤ mH := by
            rcases hH3 with h | h
            · exact h.1
            · rcases hU3 with h3 | h3 <;> omega
          have a1 : (mU : ℚ) * (2 : ℚ) ^ eU ≤ (2 : ℚ) ^ (53 : Int) * (2 : ℚ) ^ eU := by
            have : (mU : ℚ) ≤ (((2 ^ 53 : Nat)) : ℚ) := by exact_mod_cast hU1.le
            rw [cast_two_pow 53 53 rfl] at this
            exact mul_le_mul_of_nonneg_right this (two_zpow_pos _).le
          have a2 : (2 : ℚ) ^ (53 : Int) * (2 : ℚ) ^ eU =
              (2 : ℚ) ^ (52 : Int) * (2 : ℚ) ^ (eU + 1) := by
            rw [← zpow_add₀ (by norm_num : (2 : ℚ) ≠ 0),
              ← zpow_add₀ (by norm_num : (2 : ℚ) ≠ 0)]
            congr 1
            omega
          have a3 : (2 : ℚ) ^ (52 : Int) * (2 : ℚ) ^ (eU + 1) ≤
              (mH : ℚ) * (2 : ℚ) ^ eH := by
            have : (((2 ^ 52 : Nat)) : ℚ) ≤ (mH : ℚ) := by exact_mod_cast hmH52
            rw [cast_two_pow 52 52 rfl] at this
            calc (2 : ℚ) ^ (52 : Int) * (2 : ℚ) ^ (eU + 1) ≤
                  (2 : ℚ) ^ (52 : Int) * (2 : ℚ) ^ eH :=
                  mul_le_mul_of_nonneg_left
                    (zpow_le_zpow_right₀ (by norm_num) hcon1) (two_zpow_pos _).le
              _ ≤ (mH : ℚ) * (2 : ℚ) ^ eH :=
                  mul_le_mul_of_nonneg_right this (two_zpow_pos _).le
          linarith
        have hmH0 : mH ≠ 0 := by omega
        simp only [F64.div, hmH0, if_false, Bool.xor_false]
        have hexp : exp2 (eH - eU) = 1 := exp2_of_nonpos _ (by omega)
        rw [hexp, Nat.mul_one]
        have hnd : mH < mU * exp2 (eU - eH) := by
          have h1 : (mH : ℚ) < (mU : ℚ) * (2 : ℚ) ^ (eU - eH) := by
            rw [zpow_sub₀ (by norm_num : (2 : ℚ) ≠ 0), ← mul_div_assoc,
              lt_div_iff₀ (two_zpow_pos eH)]
            exact hlt
          rw [← exp2_of_nonneg (eU - eH) (by omega)] at h1
          exact_mod_cast h1
        have hn : 0 < mU * exp2 (eU - eH) := by omega
        have hx : ((((2 ^ 52 + 1 : Nat)) : ℚ) - 1 / 2) * (2 : ℚ) ^ (-52 : Int) <
            ((mU * exp2 (eU - eH) : Nat) : ℚ) / (mH : ℚ) := by
          rw [lt_div_iff₀ hmHq]
          have b1 : ((mH + 1 : Nat) : ℚ) ≤ ((mU * exp2 (eU - eH) : Nat) : ℚ) := by
            exact_mod_cast hnd
          have b2 : (mH : ℚ) < 9007199254740992 := by
            have : mH < 9007199254740992 := by
              norm_num at hH1
              exact hH1
            exact_mod_cast this
          refine lt_of_lt_of_le ?_ b1
          push_cast
          norm_num
          linarith
        rcases roundFrac_ge _ _ (2 ^ 52 + 1) (-52) hn hmH (by norm_num) (by norm_num)
            (by norm_num) hx with h0 | ⟨m1, e1, h1, h2⟩
        · rw [round_none _ _ _ h0, ofInt_100]
          rfl
        · rw [round_some _ _ _ _ _ h1]
          exact mul_100_gt m1 e1 h2
      · exfalso
        simp only [F64.lt, Bool.false_eq_true, if_false, if_true, decide_eq_true_eq] at hlt
        have h1 : (0 : Int) ≤ (mH : Int) * (exp2 (eH - eU) : Int) := by positivity
        have h2 : -(mU : Int) * (exp2 (eU - eH) : Int) ≤ 0 := by
          have : (0 : Int) ≤ (mU : Int) * (exp2 (eU - eH) : Int) := by positivity
          linarith
        linarith

/-- A fraction whose value is a canonical normal `float64` rounds to it. -/
theorem roundFrac_exact (n d c : Nat) (k : Int) (hn : 0 < n) (hd : 0 < d)
    (hc1 : 2 ^ 52 ≤ c) (hc2 : c < 2 ^ 53) (hk1 : -1074 ≤ k) (hk2 : k ≤ 971)
    (hx : (n : ℚ) / d = (c : ℚ) * (2 : ℚ) ^ k) :
    roundFrac n d = some (c, k) := by
  have h2 : (0 : ℚ) < (2 : ℚ) ^ k := two_zpow_pos k
  have hc1q : (2 : ℚ) ^ (52 : Int) ≤ (c : ℚ) := by
    have : (((2 ^ 52 : Nat)) : ℚ) ≤ (c : ℚ) := by exact_mod_cast hc1
    rwa [cast_two_pow 52 52 rfl] at this
  have hc2q : (c : ℚ) < (2 : ℚ) ^ (53 : Int) := by
    have : (c : ℚ) < (((2 ^ 53 : Nat)) : ℚ) := by exact_mod_cast hc2
    rwa [cast_two_pow 53 53 rfl] at this
  have hE : ilog2 n d = 52 + k := by
    apply ilog2_unique n d hn hd
    · rw [hx, zpow_add₀ (by norm_num : (2 : ℚ) ≠ 0)]
      exact mul_le_mul_of_nonneg_right hc1q h2.le
    · rw [hx]
      have : (52 + k + 1 : Int) = 53 + k := by omega
      rw [this, zpow_add₀ (by norm_num : (2 : ℚ) ≠ 0)]
      exact mul_lt_mul_of_pos_right hc2q h2
  have hu : k = max (ilog2 n d) (-1022) - 52 := by
    rw [hE, max_eq_left (by omega)]
    omega
  have hdu : 0 < d * exp2 k := Nat.mul_pos hd (exp2_pos k)
  have hM : c = rne (n * exp2 (-k)) (d * exp2 k) := by
    have h1 : rne (n * exp2 (-k)) (d * exp2 k) = rne (c * 1) 1 := by
      apply rne_congr _ _ _ _ hdu (by norm_num)
      rw [roundFrac_ratio n d k hd, hx, mul_assoc, ← zpow_add₀ (by norm_num : (2 : ℚ) ≠ 0)]
      simp
    rw [h1, rne_exact c 1 (by norm_num)]
  rw [roundFrac_eq n d hn k c hu hM, if_neg (by omega), if_pos hk2]

/-- The `float64` nearest to a positive `int64` value `V`: its significand and exponent,
and its value `nearest53 V`. -/
theorem roundFrac_nat (V : Nat) (hV : 0 < V) (hV63 : V < 2 ^ 63) :
    ∃ m e, roundFrac V 1 = some (m, e) ∧ 2 ^ 52 ≤ m ∧ m < 2 ^ 53 ∧ -52 ≤ e ∧
      e ≤ 11 ∧
      (m : ℚ) * (2 : ℚ) ^ e = (nearest53 V : ℚ) := by
  obtain ⟨b1, b2⟩ := bitLen_zpow V hV
  obtain ⟨c1, c2, c3⟩ := bitLen_spec V V le_rfl hV
  obtain ⟨bl, hbl⟩ : ∃ bl : Nat, bl = bitLen V V := ⟨_, rfl⟩
  rw [← hbl] at b1 b2 c1 c2 c3
  have hbl63 : bl ≤ 63 := by
    by_contra hcon
    have : 2 ^ 63 ≤ 2 ^ (bl - 1) := Nat.pow_le_pow_right (by norm_num) (by omega)
    omega
  have hE : ilog2 V 1 = (bl : Int) - 1 := by
    apply ilog2_unique V 1 hV (by norm_num)
    · simpa using b1
    · have : ((bl : Int) - 1 + 1) = bl := by omega
      rw [this]
      simpa using b2
  obtain ⟨u, hu⟩ : ∃ u : Int, u = max (ilog2 V 1) (-1022) - 52 := ⟨_, rfl⟩
  have hu1 : u = (bl : Int) - 53 := by
    rw [hu, hE, max_eq_left (by omega)]
    omega
  obtain ⟨M, hM⟩ : ∃ M : Nat, M = rne (V * exp2 (-u)) (1 * exp2 u) := ⟨_, rfl⟩
  have hdu : 0 < 1 * exp2 u := Nat.mul_pos (by norm_num) (exp2_pos u)
  have hratio := roundFrac_ratio V 1 u (by norm_num)
  have hu2 : (0 : ℚ) < (2 : ℚ) ^ (-u) := two_zpow_pos _
  have hlo : (2 : ℚ) ^ (52 : Int) ≤ (V : ℚ) / (1 : Nat) * (2 : ℚ) ^ (-u) := by
    calc (2 : ℚ) ^ (52 : Int) = (2 : ℚ) ^ ((bl : Int) - 1) * (2 : ℚ) ^ (-u) := by
          rw [← zpow_add₀ (by norm_num : (2 : ℚ) ≠ 0)]
          congr 1
          omega
      _ ≤ (V : ℚ) / (1 : Nat) * (2 : ℚ) ^ (-u) := by
          apply mul_le_mul_of_nonneg_right _ hu2.le
          simpa using b1
  have hhi : (V : ℚ) / (1 : Nat) * (2 : ℚ) ^ (-u) < (2 : ℚ) ^ (53 : Int) := by
    calc (V : ℚ) / (1 : Nat) * (2 : ℚ) ^ (-u) < (2 : ℚ) ^ (bl : Int) * (2 : ℚ) ^ (-u) := by
          apply mul_lt_mul_of_pos_right _ hu2
          simpa using b2
      _ = (2 : ℚ) ^ (53 : Int) := by
          rw [← zpow_add₀ (by norm_num : (2 : ℚ) ≠ 0)]
          congr 1
          omega
  have hM52 : 2 ^ 52 ≤ M := by
    rw [hM]
    apply le_rne _ _ _ hdu
    rw [hratio, cast_two_pow 52 52 rfl]
    linarith
  have hM53 : M ≤ 2 ^ 53 := by
    rw [hM]
    apply rne_le _ _ _ hdu
    rw [hratio, cast_two_pow 53 53 rfl]
    linarith
  have hval : (M : ℚ) * (2 : ℚ) ^ u = (nearest53 V : ℚ) := by
    have hn53 : nearest53 V = rne V (2 ^ (bl - 53)) * 2 ^ (bl - 53) := by
      rw [hbl]; rfl
    rw [hn53]
    by_cases hb : 53 ≤ bl
    · have e1 : exp2 (-u) = 1 := exp2_of_nonpos _ (by omega)
      have e2 : exp2 u = 2 ^ (bl - 53) := by
        have : u.toNat = bl - 53 := by omega
        simp [exp2, this]
      have e3 : (2 : ℚ) ^ u = (((2 ^ (bl - 53) : Nat)) : ℚ) := by
        rw [cast_two_pow (bl - 53) u (by omega)]
      rw [hM, e1, e2, e3]
      simp
    · have e1 : exp2 u = 1 := exp2_of_nonpos _ (by omega)
      have e0 : bl - 53 = 0 := by omega
      have e2 : ((exp2 (-u) : Nat) : ℚ) = (2 : ℚ) ^ (-u) := exp2_of_nonneg _ (by omega)
      have hMv : M = V * exp2 (-u) := by
        rw [hM, e1]
        have := rne_exact (V * exp2 (-u)) 1 (by norm_num)
        simpa using this
      have hV1 : rne V (2 ^ 0) = V := by
        have := rne_exact V 1 (by norm_num)
        simpa using this
      rw [e0, hV1, hMv]
      push_cast
      rw [e2, mul_assoc, ← zpow_add₀ (by norm_num : (2 : ℚ) ≠ 0)]
      simp
  rw [roundFrac_eq V 1 hV u M hu hM]
  by_cases h53 : M = 2 ^ 53
  · rw [if_pos h53, if_pos (by omega)]
    refine ⟨2 ^ 52, u + 1, rfl, le_rfl, by norm_num, by omega, by omega, ?_⟩
    rw [← hval, h53, cast_two_pow 52 52 rfl, cast_two_pow 53 53 rfl,
      ← zpow_add₀ (by norm_num : (2 : ℚ) ≠ 0),
      ← zpow_add₀ (by norm_num : (2 : ℚ) ≠ 0)]
    congr 1
    omega
  · rw [if_neg h53, if_pos (by omega)]
    exact ⟨M, u, rfl, hM52, by omega, by omega, by omega, hval⟩

theorem fixedDecimals_congr (prec a b c d : Nat) (hb : 0 < b) (hd : 0 < d)
    (h : (a : ℚ) / b = (c : ℚ) / d) : fixedDecimals prec a b = fixedDecimals prec c d := by
  have : rne (a * 10 ^ prec) b = rne (c * 10 ^ prec) d := by
    apply rne_congr _ _ _ _ hb hd
    push_cast
    rw [mul_div_right_comm, mul_div_right_comm, h]
  simp only [fixedDecimals, this]

theorem nearest53_of_le (V : Nat) (h : V ≤ 2 ^ 53) : nearest53 V = V := by
  rcases Nat.eq_zero_or_pos V with h0 | hpos
  · subst h0
    decide
  rcases Nat.lt_or_ge V (2 ^ 53) with hlt | hge
  · obtain ⟨c1, c2, c3⟩ := bitLen_spec V V le_rfl hpos
    have hb : bitLen V V ≤ 53 := by
      by_contra hcon
      have : 2 ^ 53 ≤ 2 ^ (bitLen V V - 1) := Nat.pow_le_pow_right (by norm_num) (by omega)
      omega
    have e0 : bitLen V V - 53 = 0 := by omega
    have hV1 : rne V (2 ^ 0) = V := by
      have := rne_exact V 1 (by norm_num)
      simpa using this
    simp only [nearest53, e0, hV1]
    simp
  · have : V = 2 ^ 53 := by omega
    subst this
    decide

/-- The string printed for `float64(V) / 2 ^ j` with two decimals, for a positive `int64`
value `V`: the value `nearest53 V / 2 ^ j` rendered with two decimals. -/
theorem fmt_ofInt_div (V j : Nat) (hV : 0 < V) (hV63 : V < 2 ^ 63) (hj : j ≤ 52) :
    fmtF 2 (F64.div (F64.ofInt (V : Int)) (F64.fin false (2 ^ 52) ((j : Int) - 52))) =
      fixedDecimals 2 (nearest53 V) (2 ^ j) := by
  obtain ⟨m, e, hr, hm1, hm2, he1, he2, hval⟩ := roundFrac_nat V hV hV63
  have hof : F64.ofInt (V : Int) = F64.fin false m e := by
    have h1 : decide ((V : Int) < 0) = false := by simp
    simp only [F64.ofInt, h1, Int.natAbs_ofNat]
    exact round_some _ _ _ _ _ hr
  have hm0 : 0 < m := by
    have : 0 < 2 ^ 52 := by norm_num
    omega
  have hdiv : F64.div (F64.fin false m e) (F64.fin false (2 ^ 52) ((j : Int) - 52)) =
      F64.fin false m (e - j) := by
    have h52 : (2 : Nat) ^ 52 ≠ 0 := by norm_num
    simp only [F64.div, h52, if_false, Bool.xor_false]
    apply round_some
    apply roundFrac_exact _ _ m (e - j) (Nat.mul_pos hm0 (exp2_pos _))
      (Nat.mul_pos (by norm_num) (exp2_pos _)) hm1 hm2 (by omega) (by omega)
    have hr := exp2_ratio (e - ((j : Int) - 52))
    rw [neg_sub] at hr
    push_cast
    rw [mul_div_mul_comm, hr, zpow_sub₀ (by norm_num : (2 : ℚ) ≠ 0),
      zpow_sub₀ (by norm_num : (2 : ℚ) ≠ 0), zpow_sub₀ (by norm_num : (2 : ℚ) ≠ 0)]
    have h2j : (2 : ℚ) ^ (j : Int) ≠ 0 := (two_zpow_pos _).ne'
    have h2e : (2 : ℚ) ^ e ≠ 0 := (two_zpow_pos _).ne'
    field_simp
    norm_num
    ring
  rw [hof, hdiv]
  simp only [fmtF, Bool.false_eq_true, if_false, String.empty_append]
  apply fixedDecimals_congr _ _ _ _ _ (exp2_pos _) (by positivity)
  push_cast
  rw [mul_div_assoc, exp2_ratio, ← hval, zpow_sub₀ (by norm_num : (2 : ℚ) ≠ 0),
    zpow_natCast]
  ring

/-- What `roundFrac` returns for a positive fraction: a canonical finite value within half a
unit in its last place of the fraction, or overflow for a fraction of at least
`2 ^ 1024 - 2 ^ 970`. -/
theorem roundFrac_spec (n d : Nat) (hn : 0 < n) (hd : 0 < d) :
    (∀ m e, roundFrac n d = some (m, e) →
      F64.canonical (F64.fin false m e) = true ∧
        |(m : ℚ) * (2 : ℚ) ^ e - (n : ℚ) / d| ≤ (2 : ℚ) ^ e / 2) ∧
    (roundFrac n d = none →
      (2 : ℚ) ^ (1024 : Int) - (2 : ℚ) ^ (970 : Int) ≤ (n : ℚ) / d) := by
  obtain ⟨s1, s2⟩ := ilog2_spec n d hn hd
  obtain ⟨E, hE⟩ : ∃ E : Int, E = ilog2 n d := ⟨_, rfl⟩
  rw [← hE] at s1 s2
  obtain ⟨u, hu⟩ : ∃ u : Int, u = max (ilog2 n d) (-1022) - 52 := ⟨_, rfl⟩
  rw [← hE] at hu
  have hu74 : -1074 ≤ u := by
    rw [hu]
    have := le_max_right E (-1022)
    omega
  have huE : E - 52 ≤ u := by
    rw [hu]
    have := le_max_left E (-1022)
    omega
  have hucase : u = -1074 ∨ u = E - 52 := by
    rw [hu]
    rcases le_total E (-1022) with h | h
    · left; rw [max_eq_right h]; omega
    · right; rw [max_eq_left h]
  obtain ⟨M, hM⟩ : ∃ M : Nat, M = rne (n * exp2 (-u)) (d * exp2 u) := ⟨_, rfl⟩
  have hdu : 0 < d * exp2 u := Nat.mul_pos hd (exp2_pos u)
  have hratio := roundFrac_ratio n d u hd
  have hu2 : (0 : ℚ) < (2 : ℚ) ^ u := two_zpow_pos u
  have hun : (0 : ℚ) < (2 : ℚ) ^ (-u) := two_zpow_pos _
  have hinv : (2 : ℚ) ^ (-u) * (2 : ℚ) ^ u = 1 := by
    rw [← zpow_add₀ (by norm_num : (2 : ℚ) ≠ 0)]
    simp
  have hspec := rne_spec (n * exp2 (-u)) (d * exp2 u) hdu
  rw [hratio, ← hM] at hspec
  have herr : |(M : ℚ) * (2 : ℚ) ^ u - (n : ℚ) / d| ≤ (2 : ℚ) ^ u / 2 := by
    have e1 : (M : ℚ) * (2 : ℚ) ^ u - (n : ℚ) / d =
        ((M : ℚ) - (n : ℚ) / d * (2 : ℚ) ^ (-u)) * (2 : ℚ) ^ u := by
      rw [sub_mul, mul_assoc, hinv, mul_one]
    rw [e1, abs_mul, abs_of_pos hu2]
    calc |(M : ℚ) - (n : ℚ) / d * (2 : ℚ) ^ (-u)| * (2 : ℚ) ^ u ≤ 1 / 2 * (2 : ℚ) ^ u :=
          mul_le_mul_of_nonneg_right hspec hu2.le
      _ = (2 : ℚ) ^ u / 2 := by ring
  have hxhi : (n : ℚ) / d * (2 : ℚ) ^ (-u) < (2 : ℚ) ^ (53 : Int) := by
    calc (n : ℚ) / d * (2 : ℚ) ^ (-u) < (2 : ℚ) ^ (E + 1) * (2 : ℚ) ^ (-u) :=
          mul_lt_mul_of_pos_right s2 hun
      _ = (2 : ℚ) ^ (E + 1 + -u) := (zpow_add₀ (by norm_num : (2 : ℚ) ≠ 0) _ _).symm
      _ ≤ (2 : ℚ) ^ (53 : Int) := zpow_le_zpow_right₀ (by norm_num) (by omega)
  have hM53 : M ≤ 2 ^ 53 := by
    rw [hM]
    apply rne_le _ _ _ hdu
    rw [hratio, cast_two_pow 53 53 rfl]
    linarith
  have hMlo : u = E - 52 → 2 ^ 52 ≤ M := by
    intro hue
    rw [hM]
    apply le_rne _ _ _ hdu
    rw [hratio, cast_two_pow 52 52 rfl]
    have : (2 : ℚ) ^ (52 : Int) ≤ (n : ℚ) / d * (2 : ℚ) ^ (-u) := by
      calc (2 : ℚ) ^ (52 : Int) = (2 : ℚ) ^ E * (2 : ℚ) ^ (-u) := by
            rw [← zpow_add₀ (by norm_num : (2 : ℚ) ≠ 0)]
            congr 1
            omega
        _ ≤ (n : ℚ) / d * (2 : ℚ) ^ (-u) := mul_le_mul_of_nonneg_right s1 hun.le
    linarith
  have hcanon : u = -1074 ∨ 2 ^ 52 ≤ M := by
    rcases hucase with h | h
    · exact Or.inl h
    · exact Or.inr (hMlo h)
  have hE' : u = max (ilog2 n d) (-1022) - 52 := by rw [hu, hE]
  rw [roundFrac_eq n d hn u M hE' hM]
  constructor
  · intro m e hsome
    by_cases h53 : M = 2 ^ 53
    · rw [if_pos h53] at hsome
      by_cases hle : u + 1 ≤ 971
      · rw [if_pos hle] at hsome
        simp only [Option.some.injEq, Prod.mk.injEq] at hsome
        obtain ⟨rfl, rfl⟩ := hsome
        refine ⟨?_, ?_⟩
        · simp only [F64.canonical, Bool.and_eq_true, Bool.or_eq_true, decide_eq_true_eq]
          exact ⟨⟨by norm_num, hle⟩, Or.inl ⟨le_rfl, by omega⟩⟩
        · have e1 : (((2 ^ 52 : Nat)) : ℚ) * (2 : ℚ) ^ (u + 1) =
              (M : ℚ) * (2 : ℚ) ^ u := by
            rw [h53, cast_two_pow 52 52 rfl, cast_two_pow 53 53 rfl,
              ← zpow_add₀ (by norm_num : (2 : ℚ) ≠ 0),
              ← zpow_add₀ (by norm_num : (2 : ℚ) ≠ 0)]
            congr 1
            omega
          rw [e1]
          refine le_trans herr ?_
          have : (2 : ℚ) ^ u ≤ (2 : ℚ) ^ (u + 1) :=
            zpow_le_zpow_right₀ (by norm_num) (by omega)
          linarith
      · rw [if_neg hle] at hsome
        cases hsome
    · rw [if_neg h53] at hsome
      by_cases hle : u ≤ 971
      · rw [if_pos hle] at hsome
        simp only [Option.some.injEq, Prod.mk.injEq] at hsome
        obtain ⟨rfl, rfl⟩ := hsome
        refine ⟨?_, herr⟩
        simp only [F64.canonical, Bool.and_eq_true, Bool.or_eq_true, decide_eq_true_eq]
        refine ⟨⟨by omega, hle⟩, ?_⟩
        rcases hcanon with h | h
        · exact Or.inr h
        · exact Or.inl ⟨h, hu74⟩
      · rw [if_neg hle] at hsome
        cases hsome
  · intro hnone
    have hbig : (2 : ℚ) ^ (1024 : Int) ≤ (M : ℚ) * (2 : ℚ) ^ u := by
      by_cases h53 : M = 2 ^ 53
      · rw [if_pos h53] at hnone
        by_cases hle : u + 1 ≤ 971
        · rw [if_pos hle] at hnone
          cases hnone
        · rw [h53, cast_two_pow 53 53 rfl, ← zpow_add₀ (by norm_num : (2 : ℚ) ≠ 0)]
          exact zpow_le_zpow_right₀ (by norm_num) (by omega)
      · rw [if_neg h53] at hnone
        by_cases hle : u ≤ 971
        · rw [if_pos hle] at hnone
          cases hnone
        · have hM52 : 2 ^ 52 ≤ M := by
            rcases hcanon with h | h
            · omega
            · exact h
          have hM52q : (2 : ℚ) ^ (52 : Int) ≤ (M : ℚ) := by
            have : (((2 ^ 52 : Nat)) : ℚ) ≤ (M : ℚ) := by exact_mod_cast hM52
            rwa [cast_two_pow 52 52 rfl] at this
          calc (2 : ℚ) ^ (1024 : Int) ≤ (2 : ℚ) ^ (52 + u) :=
                zpow_le_zpow_right₀ (by norm_num) (by omega)
            _ = (2 : ℚ) ^ (52 : Int) * (2 : ℚ) ^ u := zpow_add₀ (by norm_num) _ _
            _ ≤ (M : ℚ) * (2 : ℚ) ^ u := mul_le_mul_of_nonneg_right hM52q hu2.le
    have hu971 : 971 ≤ u := by
      by_contra hcon
      have h1 : u + 1 ≤ 971 := by omega
      have h2 : u ≤ 971 := by omega
      by_cases h53 : M = 2 ^ 53
      · rw [if_pos h53, if_pos h1] at hnone
        cases hnone
      · rw [if_neg h53, if_pos h2] at hnone
        cases hnone
    rw [abs_le] at herr
    by_cases h53 : M = 2 ^ 53
    · have e1 : (M : ℚ) * (2 : ℚ) ^ u = (2 : ℚ) ^ (53 + u) := by
        rw [h53, cast_two_pow 53 53 rfl, ← zpow_add₀ (by norm_num : (2 : ℚ) ≠ 0)]
      by_cases hu0 : u = 971
      · subst hu0
        rw [e1] at herr
        have e2 : (2 : ℚ) ^ (971 : Int) / 2 = (2 : ℚ) ^ (970 : Int) := by
          rw [show (971 : Int) = 970 + 1 by norm_num, zpow_add₀ (by norm_num : (2 : ℚ) ≠ 0)]
          simp
        have e3 : ((53 : Int) + 971) = 1024 := by norm_num
        rw [e2, e3] at herr
        linarith [herr.1]
      · have h4 : (2 : ℚ) ^ (1024 : Int) ≤ (2 : ℚ) ^ (52 + u) :=
          zpow_le_zpow_right₀ (by norm_num) (by omega)
        have h5 : (2 : ℚ) ^ (52 + u) ≤ (n : ℚ) / d := by
          have h6 : (2 : ℚ) ^ (52 + u) ≤ (2 : ℚ) ^ E := by
            rcases hucase with h | h
            · omega
            · exact zpow_le_zpow_right₀ (by norm_num) (by omega)
          exact le_trans h6 s1
        have h7 : (0 : ℚ) < (2 : ℚ) ^ (970 : Int) := two_zpow_pos _
        linarith
    · have hle : ¬ u ≤ 971 := by
        intro hle
        rw [if_neg h53, if_pos hle] at hnone
        cases hnone
      have h4 : (2 : ℚ) ^ (1024 : Int) ≤ (2 : ℚ) ^ (52 + u) :=
        zpow_le_zpow_right₀ (by norm_num) (by omega)
      have h5 : (2 : ℚ) ^ (52 + u) ≤ (n : ℚ) / d := by
        have h6 : (2 : ℚ) ^ (52 + u) ≤ (2 : ℚ) ^ E := by
          rcases hucase with h | h
          · omega
          · exact zpow_le_zpow_right₀ (by norm_num) (by omega)
        exact le_trans h6 s1
      have h7 : (0 : ℚ) < (2 : ℚ) ^ (970 : Int) := two_zpow_pos _
      linarith

/-- Values computed by the `float64` model, as binary64 arithmetic and Go's `%.Nf` give
them: the quotients `1/3` and `1/10`, ties to even in the conversion of `2^53 + 1` and
`2^53 + 3`, overflow, gradual underflow, division by zero, and ties to even in the decimal
rendering. -/
theorem float64_examples :
    F64.div (F64.ofInt 1) (F64.ofInt 3) = F64.fin false 6004799503160661 (-54) ∧
    F64.div (F64.ofInt 1) (F64.ofInt 10) = F64.fin false 7205759403792794 (-56) ∧
    F64.ofInt (2 ^ 53 + 1) = F64.fin false (2 ^ 52) 1 ∧
    F64.ofInt (2 ^ 53 + 3) = F64.fin false (2 ^ 52 + 2) 1 ∧
    F64.ofInt (-5) = F64.fin true (5 * 2 ^ 50) (-50) ∧
    F64.mul (F64.fin false (2 ^ 52) 971) (F64.ofInt 2) = F64.inf false ∧
    F64.div (F64.fin false 1 (-1074)) (F64.ofInt 2) = F64.fin false 0 (-1074) ∧
    F64.div (F64.fin false 3 (-1074)) (F64.ofInt 2) = F64.fin false 2 (-1074) ∧
    F64.div (F64.ofInt 1) (F64.ofInt 0) = F64.inf false ∧
    F64.div (F64.ofInt 0) (F64.ofInt 0) = F64.nan ∧
    fmtF 2 (F64.div (F64.ofInt 9) (F64.ofInt 8)) = "1.12" ∧
    fmtF 2 (F64.div (F64.ofInt 11) (F64.ofInt 8)) = "1.38" ∧
    fmtF 1 (F64.div (F64.ofInt 35) (F64.ofInt 100)) = "0.3" ∧
    fmtF 1 (F64.mul (F64.div (F64.ofInt 1) (F64.ofInt 3)) (F64.ofInt 100)) = "33.3" ∧
    fmtF 1 (F64.mul (F64.div (F64.ofInt 5) (F64.ofInt 4)) (F64.ofInt 100)) = "125.0" ∧
    fmtF 1 (F64.ofInt (-1)) = "-1.0" ∧
    fmtF 1 F64.nan = "NaN" ∧ fmtF 1 (F64.inf false) = "+Inf" ∧
    fmtF 1 (F64.inf true) = "-Inf" := by
  decide

theorem padZero_two_digits : ∀ k : Fin 100,
    padZero 2 k.val =
      String.mk [Nat.digitChar (k.val / 10), Nat.digitChar (k.val % 10)] := by
  decide

/-- The string `fixedDecimals 2 n d` is an integer part, a point and exactly two decimal
digits. -/
theorem fixedDecimals_two (n d : Nat) :
    fixedDecimals 2 n d =
      toString (rne (n * 10 ^ 2) d / 100) ++ "." ++
        String.mk [Nat.digitChar (rne (n * 10 ^ 2) d % 100 / 10),
          Nat.digitChar (rne (n * 10 ^ 2) d % 100 % 10)] := by
  obtain ⟨h, hh⟩ : ∃ h : Nat, h = rne (n * 10 ^ 2) d := ⟨_, rfl⟩
  have hlt : h % 100 < 100 := Nat.mod_lt _ (by norm_num)
  have hp := padZero_two_digits ⟨_, hlt⟩
  have h100 : (10 : Nat) ^ 2 = 100 := by norm_num
  rw [h100] at hh
  simp only [fixedDecimals, if_neg (by norm_num : (2 : Nat) ≠ 0), h100, ← hh]
  simp only [] at hp
  rw [hp, String.append_assoc]

/-! ## The percentage -/

/-- A finite result of `F64.round` has the sign asked for and lies within half a unit in
its last place of the fraction. -/
theorem round_value (s t : Bool) (n d m : Nat) (e : Int) (hd : 0 < d)
    (h : F64.round s n d = F64.fin t m e) :
    t = s ∧ |(m : ℚ) * (2 : ℚ) ^ e - (n : ℚ) / d| ≤ (2 : ℚ) ^ e / 2 := by
  cases hr : roundFrac n d with
  | none =>
    rw [round_none _ _ _ hr] at h
    cases h
  | some r =>
    obtain ⟨m1, e1⟩ := r
    rw [round_some _ _ _ _ _ hr] at h
    injection h with h1 h2 h3
    subst h1 h2 h3
    refine ⟨rfl, ?_⟩
    rcases Nat.eq_zero_or_pos n with h0 | hpos
    · subst h0
      rw [roundFrac_zero] at hr
      simp only [Option.some.injEq, Prod.mk.injEq] at hr
      obtain ⟨rfl, rfl⟩ := hr
      simp only [Nat.cast_zero, zero_mul, zero_div, sub_self, abs_zero]
      exact (div_pos (two_zpow_pos _) (by norm_num)).le
    · exact ((roundFrac_spec n d hpos hd).1 m1 e1 hr).2

theorem div_ratio (mu mh : Nat) (eu eh : Int) :
    ((mu * exp2 (eu - eh) : Nat) : ℚ) / ((mh * exp2 (eh - eu) : Nat) : ℚ) =
      ((mu : ℚ) * (2 : ℚ) ^ eu) / ((mh : ℚ) * (2 : ℚ) ^ eh) := by
  have hr := exp2_ratio (eu - eh)
  rw [neg_sub] at hr
  push_cast
  rw [mul_div_mul_comm, hr, zpow_sub₀ (by norm_num : (2 : ℚ) ≠ 0), mul_div_mul_comm]

theorem mul_100_ratio (mq : Nat) (eq : Int) :
    ((mq * 7036874417766400 * exp2 (eq + -46) : Nat) : ℚ) /
        ((exp2 (-(eq + -46)) : Nat) : ℚ) = (mq : ℚ) * (2 : ℚ) ^ eq * 100 := by
  push_cast
  rw [mul_div_assoc, exp2_ratio, zpow_add₀ (by norm_num : (2 : ℚ) ≠ 0)]
  norm_num
  ring

/-- The quotient of a positive finite `float64` by itself is one, and its product with 100
is 100. -/
theorem mul_div_self_100 (m : Nat) (e : Int) (hm : 0 < m) :
    F64.mul (F64.div (F64.fin false m e) (F64.fin false m e)) (F64.ofInt 100) =
      F64.ofInt 100 := by
  have hm0 : m ≠ 0 := by omega
  have hdiv : F64.div (F64.fin false m e) (F64.fin false m e) =
      F64.fin false (2 ^ 52) (-52) := by
    simp only [F64.div, hm0, if_false, Bool.xor_false]
    apply round_some
    apply roundFrac_exact _ _ (2 ^ 52) (-52) (Nat.mul_pos hm (exp2_pos _))
      (Nat.mul_pos hm (exp2_pos _)) le_rfl (by norm_num) (by norm_num) (by norm_num)
    have hne : (((m * exp2 (e - e) : Nat)) : ℚ) ≠ 0 := by
      exact_mod_cast (Nat.mul_pos hm (exp2_pos _)).ne'
    rw [div_self hne]
    norm_num
  rw [hdiv]
  decide

/-- C3, as the code has it. The quantities enter through their `float64` values `u` and
`h`. With a hard limit that is not zero and `h > 0`, the percentage is the `float64`
expression `(u / h) * 100`; when it is finite it is not negative, the quotient is within
half a unit in its last place of `u / h`, and the percentage within half a unit in its last
place of a hundred times the quotient. There is no clamping: for `u > h` the percentage is
above 100. When `u` and `h` are the same finite value, as for a usage above the hard limit
that has the same `float64` value, the percentage is exactly 100, and when both are `+Inf`
it is not a number. With a hard limit that is zero the percentage is zero whatever the
usage, and no division takes place. -/
theorem percentage_formula (used hardLimit : Quantity) :
    (hardLimit.isZero = false → F64.lt F64.zero hardLimit.approx = true →
      percentage used hardLimit =
        F64.mul (F64.div used.approx hardLimit.approx) (F64.ofInt 100)) ∧
    (∀ (mu mh m : Nat) (eu eh e : Int) (s : Bool), hardLimit.isZero = false →
      used.approx = F64.fin false mu eu → hardLimit.approx = F64.fin false mh eh → 0 < mh →
      percentage used hardLimit = F64.fin s m e →
      s = false ∧ ∃ mq eq, F64.div used.approx hardLimit.approx = F64.fin false mq eq ∧
        |(mq : ℚ) * (2 : ℚ) ^ eq -
            ((mu : ℚ) * (2 : ℚ) ^ eu) / ((mh : ℚ) * (2 : ℚ) ^ eh)| ≤
          (2 : ℚ) ^ eq / 2 ∧
        |(m : ℚ) * (2 : ℚ) ^ e - (mq : ℚ) * (2 : ℚ) ^ eq * 100| ≤ (2 : ℚ) ^ e / 2) ∧
    (hardLimit.isZero = false → F64.lt F64.zero hardLimit.approx = true →
      used.approx.canonical = true → hardLimit.approx.canonical = true →
      F64.lt hardLimit.approx used.approx = true →
      F64.lt (F64.ofInt 100) (percentage used hardLimit) = true) ∧
    (∀ (m : Nat) (e : Int), hardLimit.isZero = false → 0 < m →
      hardLimit.approx = F64.fin false m e → used.approx = F64.fin false m e →
      percentage used hardLimit = F64.ofInt 100) ∧
    (hardLimit.isZero = false → hardLimit.approx = F64.inf false →
      used.approx = F64.inf false → percentage used hardLimit = F64.nan) ∧
    ((hardLimit.isZero = true ∨ ∃ s e, hardLimit.approx = F64.fin s 0 e) →
      percentage used hardLimit = F64.zero) := by
  have hform : hardLimit.isZero = false → F64.lt F64.zero hardLimit.approx = true →
      percentage used hardLimit =
        F64.mul (F64.div used.approx hardLimit.approx) (F64.ofInt 100) := by
    intro h1 h2
    simp [percentage, h1, h2]
  refine ⟨hform, ?_, ?_, ?_, ?_, ?_⟩
  · intro mu mh m eu eh e s hz hu hh hmh hp
    have hpos : F64.lt F64.zero hardLimit.approx = true := by
      rw [hh]
      exact (lt_zero_iff _).mpr (Or.inr ⟨mh, eh, hmh, rfl⟩)
    rw [hform hz hpos, hu, hh] at hp
    rw [hu, hh]
    have hmh0 : mh ≠ 0 := by omega
    have hdiv : F64.div (F64.fin false mu eu) (F64.fin false mh eh) =
        F64.round false (mu * exp2 (eu - eh)) (mh * exp2 (eh - eu)) := by
      simp only [F64.div, hmh0, if_false, Bool.xor_false]
    have hd : 0 < mh * exp2 (eh - eu) := Nat.mul_pos hmh (exp2_pos _)
    rw [hdiv] at hp ⊢
    cases hq : F64.round false (mu * exp2 (eu - eh)) (mh * exp2 (eh - eu)) with
    | nan =>
      rw [hq] at hp
      simp [F64.mul] at hp
    | inf t =>
      rw [hq, ofInt_100] at hp
      simp [F64.mul] at hp
    | fin t mq eq =>
      obtain ⟨ht, hqv⟩ := round_value _ _ _ _ _ _ hd hq
      subst ht
      rw [div_ratio] at hqv
      rw [hq, ofInt_100] at hp
      simp only [F64.mul, Bool.xor_false] at hp
      obtain ⟨hs, hpv⟩ := round_value _ _ _ _ _ _ (exp2_pos _) hp
      rw [mul_100_ratio] at hpv
      exact ⟨hs, mq, eq, rfl, hqv, hpv⟩
  · intro h1 h2 hU hH hlt
    rw [hform h1 h2]
    exact mul_div_gt_100 _ _ hU hH h2 hlt
  · intro m e hz hm hh hu
    have hpos : F64.lt F64.zero hardLimit.approx = true := by
      rw [hh]
      exact (lt_zero_iff _).mpr (Or.inr ⟨m, e, hm, rfl⟩)
    rw [hform hz hpos, hu, hh]
    exact mul_div_self_100 m e hm
  · intro hz hh hu
    have hpos : F64.lt F64.zero hardLimit.approx = true := by
      rw [hh]
      rfl
    rw [hform hz hpos, hu, hh]
    rfl
  · rintro (h | ⟨s, e, h⟩)
    · simp [percentage, h]
    · have hnot : F64.lt F64.zero hardLimit.approx = false := by
        cases hc : F64.lt F64.zero hardLimit.approx with
        | false => rfl
        | true =>
          exfalso
          rcases (lt_zero_iff _).mp hc with h1 | ⟨m, e1, hm, h1⟩
          · rw [h] at h1
            cases h1
          · rw [h] at h1
            injection h1 with _ hm0 _
            omega
      unfold percentage
      split
      · simp [hnot]
      · rfl

theorem percentage_formula_witness :
    percentage ⟨"6", false, F64.ofInt 6⟩ ⟨"4", false, F64.ofInt 4⟩ =
        F64.mul (F64.div (F64.ofInt 6) (F64.ofInt 4)) (F64.ofInt 100) ∧
      F64.lt (F64.ofInt 100)
        (percentage ⟨"6", false, F64.ofInt 6⟩ ⟨"4", false, F64.ofInt 4⟩) = true ∧
      percentage exUsedOver exHardOver = F64.ofInt 100 ∧
      percentage ⟨"6", false, F64.inf false⟩ ⟨"4", false, F64.inf false⟩ = F64.nan ∧
      percentage ⟨"6", false, F64.ofInt 6⟩ ⟨"0", true, F64.zero⟩ = F64.zero := by
  have h := percentage_formula ⟨"6", false, F64.ofInt 6⟩ ⟨"4", false, F64.ofInt 4⟩
  have h1 := percentage_formula exUsedOver exHardOver
  have h2 := percentage_formula ⟨"6", false, F64.inf false⟩ ⟨"4", false, F64.inf false⟩
  have h0 := percentage_formula ⟨"6", false, F64.ofInt 6⟩ ⟨"0", true, F64.zero⟩
  exact ⟨h.1 (by decide) (by decide),
    h.2.2.1 (by decide) (by decide) (by decide) (by decide) (by decide),
    h1.2.2.2.1 (2 ^ 52) 1 (by decide) (by decide) (by decide) (by decide),
    h2.2.2.2.2.1 (by decide) (by decide) (by decide),
    h0.2.2.2.2.2 (Or.inl (by decide))⟩

/-- C3, as the claim states it, fails: the usage `2^53 + 1` is above the hard limit `2^53`,
which is positive, but the two have the same `float64` value, and the percentage is exactly
100, printed `100.0%`, not above 100. -/
theorem percentage_formula_counterexample :
    isPlainInt exUsedOver.str = true ∧ isPlainInt exHardOver.str = true ∧
    intValue exUsedOver.str = 2 ^ 53 + 1 ∧ intValue exHardOver.str = 2 ^ 53 ∧
    0 < intValue exHardOver.str ∧ intValue exHardOver.str < intValue exUsedOver.str ∧
    exUsedOver.approx = F64.ofInt (intValue exUsedOver.str) ∧
    exHardOver.approx = F64.ofInt (intValue exHardOver.str) ∧
    exUsedOver.approx = exHardOver.approx ∧
    percentage exUsedOver exHardOver = F64.ofInt 100 ∧
    F64.lt (F64.ofInt 100) (percentage exUsedOver exHardOver) = false ∧
    fmtF 1 (percentage exUsedOver exHardOver) ++ "%" = "100.0%" := by
  decide

/-! ## Plain integers -/

theorem foldl_digits_ge (cs : List Char) (n : Nat) :
    n ≤ cs.foldl (fun n c => n * 10 + (c.toNat - 48)) n := by
  induction cs generalizing n with
  | nil => simp
  | cons c cs ih =>
    simp only [List.foldl_cons]
    exact le_trans (by omega) (ih _)

theorem parseUintLoop_spec (cs : List Char) (hall : ∀ c ∈ cs, isDigit c = true) (n : Nat)
    (hn : n ≤ maxUint64) :
    (cs.foldl (fun n c => n * 10 + (c.toNat - 48)) n ≤ maxUint64 →
        parseUintLoop cs n = .ok (cs.foldl (fun n c => n * 10 + (c.toNat - 48)) n)) ∧
      (maxUint64 < cs.foldl (fun n c => n * 10 + (c.toNat - 48)) n →
        parseUintLoop cs n = .error (.rangeError maxUint64)) := by
  induction cs generalizing n with
  | nil =>
    constructor
    · intro _
      rfl
    · intro h
      simp only [List.foldl_nil] at h
      omega
  | cons c cs ih =>
    have hc : 48 ≤ c.toNat ∧ c.toNat ≤ 57 := by
      have := hall c (List.mem_cons_self _ _)
      simpa [isDigit] using this
    have hrest : ∀ c1 ∈ cs, isDigit c1 = true :=
      fun c1 h1 => hall c1 (List.mem_cons_of_mem _ h1)
    have hge := foldl_digits_ge cs (n * 10 + (c.toNat - 48))
    have hmax : maxUint64 = 18446744073709551615 := by decide
    simp only [List.foldl_cons]
    unfold parseUintLoop
    rw [if_pos hc]
    by_cases h1 : n ≥ maxUint64 / 10 + 1
    · rw [if_pos h1]
      have : maxUint64 < n * 10 + (c.toNat - 48) := by
        rw [hmax] at h1 ⊢
        omega
      constructor
      · intro h
        omega
      · intro _
        rfl
    · rw [if_neg h1]
      by_cases h2 : n * 10 + (c.toNat - 48) > maxUint64
      · simp only [h2, if_true]
        constructor
        · intro h
          omega
        · intro _
          trivial
      · simp only [h2, if_false]
        exact ih hrest _ (by omega)

theorem parseUint_spec (cs : List Char) (hne : cs ≠ []) (hall : ∀ c ∈ cs, isDigit c = true) :
    (digitsValue cs ≤ maxUint64 → ParseUint cs = .ok (digitsValue cs)) ∧
      (maxUint64 < digitsValue cs → ParseUint cs = .error (.rangeError maxUint64)) := by
  have h := parseUintLoop_spec cs hall 0 (by decide)
  simp only [ParseUint, hne, if_false, digitsValue]
  exact h

theorem isPlainInt_data (s : String) (h : isPlainInt s = true) :
    ∃ c cs, s.data = c :: cs ∧
      unsignedPart s = (if c = Char.ofNat 43 ∨ c = Char.ofNat 45 then cs else c :: cs) ∧
      unsignedPart s ≠ [] ∧ ∀ c1 ∈ unsignedPart s, isDigit c1 = true := by
  simp only [isPlainInt, Bool.and_eq_true, decide_eq_true_eq, List.all_eq_true] at h
  obtain ⟨hne, hall⟩ := h
  cases hd : s.data with
  | nil =>
    exfalso
    apply hne
    simp [unsignedPart, hd]
  | cons c cs =>
    refine ⟨c, cs, rfl, ?_, hne, hall⟩
    simp [unsignedPart, hd]

/-- On a plain base-10 integer string, `ParseInt` returns the integer when it is an `int64`
and fails otherwise. -/
theorem parseInt_plain (s : String) (h : isPlainInt s = true) :
    (-(2 : Int) ^ 63 ≤ intValue s → intValue s < (2 : Int) ^ 63 →
        ParseInt s = .ok (intValue s)) ∧
      ((intValue s < -(2 : Int) ^ 63 ∨ (2 : Int) ^ 63 ≤ intValue s) →
        ∃ e, ParseInt s = .error e) := by
  obtain ⟨c, cs, hd, hbody, hne, hall⟩ := isPlainInt_data s h
  obtain ⟨p1, p2⟩ := parseUint_spec _ hne hall
  have hmax : maxUint64 = 18446744073709551615 := by decide
  have hint : intValue s = if c = Char.ofNat 45 then -(digitsValue (unsignedPart s) : Int)
      else (digitsValue (unsignedPart s) : Int) := by
    simp [intValue, hd]
  have hP : ParseInt s =
      match ParseUint (unsignedPart s) with
      | .error .syntaxError => .error .syntaxError
      | .error (.rangeError un) =>
        if ¬ (c = Char.ofNat 45) ∧ un ≥ 2 ^ 63 then .error (.rangeError (2 ^ 63 - 1))
        else if c = Char.ofNat 45 ∧ un > 2 ^ 63 then .error (.rangeError (2 ^ 63))
        else .ok (if c = Char.ofNat 45 then -(un : Int) else (un : Int))
      | .ok un =>
        if ¬ (c = Char.ofNat 45) ∧ un ≥ 2 ^ 63 then .error (.rangeError (2 ^ 63 - 1))
        else if c = Char.ofNat 45 ∧ un > 2 ^ 63 then .error (.rangeError (2 ^ 63))
        else .ok (if c = Char.ofNat 45 then -(un : Int) else (un : Int)) := by
    rw [hbody]
    simp only [ParseInt, hd]
  rw [hP, hint]
  obtain ⟨un, hun⟩ : ∃ un : Nat, un = digitsValue (unsignedPart s) := ⟨_, rfl⟩
  rw [← hun] at p1 p2 ⊢
  by_cases hle : un ≤ maxUint64
  · rw [p1 hle]
    by_cases hneg : c = Char.ofNat 45
    · simp only [hneg, not_true_eq_false, false_and, if_false, true_and, if_true]
      constructor
      · intro h1 h2
        have : ¬ un > 2 ^ 63 := by omega
        simp only [this, if_false]
      · intro h1
        have : un > 2 ^ 63 := by omega
        simp only [this, if_true]
        exact ⟨_, rfl⟩
    · simp only [hneg, not_false_eq_true, true_and, false_and, if_false]
      constructor
      · intro h1 h2
        have : ¬ un ≥ 2 ^ 63 := by omega
        simp only [this, if_false]
      · intro h1
        have : un ≥ 2 ^ 63 := by omega
        simp only [this, if_true]
        exact ⟨_, rfl⟩
  · rw [p2 (by omega)]
    have hbig : maxUint64 ≥ 2 ^ 63 ∧ maxUint64 > 2 ^ 63 := by decide
    by_cases hneg : c = Char.ofNat 45
    · simp only [hneg, not_true_eq_false, false_and, if_false, true_and, if_true, hbig.2]
      constructor
      · intro h1 h2
        rw [hmax] at hle
        omega
      · intro _
        exact ⟨_, rfl⟩
    · simp only [hneg, not_false_eq_true, true_and, false_and, if_false, hbig.1, if_true]
      constructor
      · intro h1 h2
        rw [hmax] at hle
        omega
      · intro _
        exact ⟨_, rfl⟩

theorem getLast_unsignedPart (s : String) (h : isPlainInt s = true) :
    ∃ c, s.data.getLast? = some c ∧ isDigit c = true := by
  obtain ⟨c, cs, hd, hbody, hne, hall⟩ := isPlainInt_data s h
  rw [hbody] at hne hall
  by_cases hs : c = Char.ofNat 43 ∨ c = Char.ofNat 45
  · rw [if_pos hs] at hne hall
    refine ⟨cs.getLast hne, ?_, hall _ (List.getLast_mem hne)⟩
    obtain ⟨x, xs, hx⟩ := List.exists_cons_of_ne_nil hne
    subst hx
    rw [hd, List.getLast?_cons_cons, List.getLast?_eq_getLast _ hne]
  · rw [if_neg hs] at hne hall
    refine ⟨(c :: cs).getLast hne, ?_, hall _ (List.getLast_mem hne)⟩
    rw [hd, List.getLast?_eq_getLast _ hne]

theorem not_hasSuffix_of_plain (s suf : String) (h : isPlainInt s = true) (c0 : Char)
    (hs : suf.data.getLast? = some c0) (hc : isDigit c0 = false) : HasSuffix s suf = false := by
  cases hcon : HasSuffix s suf with
  | false => rfl
  | true =>
    exfalso
    obtain ⟨p, hp⟩ := hasSuffix_data hcon
    obtain ⟨c, hl, hdig⟩ := getLast_unsignedPart s h
    rw [hp, List.getLast?_append, hs] at hl
    simp at hl
    subst hl
    rw [hc] at hdig
    cases hdig

theorem normalizeDisplay_plain_ok (s : String) (h : isPlainInt s = true) (val : Int)
    (hp : ParseInt s = .ok val) :
    normalizeDisplay s =
      if val > 1024 then
        if val ≥ 1024 * 1024 * 1024 then
          fmtF 2 (F64.div (F64.ofInt val) (F64.ofInt (1024 * 1024 * 1024))) ++ "Gi"
        else if val ≥ 1024 * 1024 then
          fmtF 2 (F64.div (F64.ofInt val) (F64.ofInt (1024 * 1024))) ++ "Mi"
        else s
      else s := by
  have h1 := not_hasSuffix_of_plain s "Ki" h (Char.ofNat 105) (by decide) (by decide)
  have h2 := not_hasSuffix_of_plain s "Mi" h (Char.ofNat 105) (by decide) (by decide)
  have h3 := not_hasSuffix_of_plain s "Gi" h (Char.ofNat 105) (by decide) (by decide)
  unfold normalizeDisplay
  simp only [h1, h2, h3, Bool.or_self, Bool.false_eq_true, if_false, hp]

theorem normalizeDisplay_error (s : String) (e : NumError) (hp : ParseInt s = .error e) :
    normalizeDisplay s = s := by
  unfold normalizeDisplay
  simp only [hp]
  split <;> rfl

theorem ofInt_mi :
    F64.ofInt (1024 * 1024) = F64.fin false (2 ^ 52) (((20 : Nat) : Int) - 52) := by
  decide

theorem ofInt_gi :
    F64.ofInt (1024 * 1024 * 1024) = F64.fin false (2 ^ 52) (((30 : Nat) : Int) - 52) := by
  decide

/-- C1, as the code has it. For a plain base-10 integer string with value `V`: the string is
kept when `V ≤ 1024`, when `1024 < V < 1024^2`, and when `V ≥ 2^63` (the value is not an
`int64`); for `1024^2 ≤ V < 1024^3` it becomes `V / 1024^2` with two decimals followed by
`Mi`; for `1024^3 ≤ V < 2^63` it becomes `W / 1024^3` with two decimals followed by `Gi`,
where `W` is the `float64` nearest to `V`, equal to `V` up to `2^53`. -/
theorem normalizeDisplay_plainInt (s : String) (h : isPlainInt s = true) :
    (intValue s ≤ 1024 → normalizeDisplay s = s) ∧
    (1024 < intValue s → intValue s < 1024 * 1024 → normalizeDisplay s = s) ∧
    (1024 * 1024 ≤ intValue s → intValue s < 1024 * 1024 * 1024 →
      normalizeDisplay s = fixedDecimals 2 (intValue s).toNat (1024 * 1024) ++ "Mi") ∧
    (1024 * 1024 * 1024 ≤ intValue s → intValue s < 2 ^ 63 →
      normalizeDisplay s =
        fixedDecimals 2 (nearest53 (intValue s).toNat) (1024 * 1024 * 1024) ++ "Gi") ∧
    (intValue s ≤ 2 ^ 53 → nearest53 (intValue s).toNat = (intValue s).toNat) ∧
    (2 ^ 63 ≤ intValue s → normalizeDisplay s = s) := by
  obtain ⟨p1, p2⟩ := parseInt_plain s h
  have hok := normalizeDisplay_plain_ok s h
  obtain ⟨V, hV⟩ : ∃ V : Int, V = intValue s := ⟨_, rfl⟩
  rw [← hV] at p1 p2 ⊢
  refine ⟨?_, ?_, ?_, ?_, ?_, ?_⟩
  · intro hle
    by_cases hlo : -(2 : Int) ^ 63 ≤ V
    · rw [hok V (p1 hlo (by omega))]
      have : ¬ V > 1024 := by omega
      simp only [this, if_false]
    · obtain ⟨e, he⟩ := p2 (Or.inl (by omega))
      exact normalizeDisplay_error s e he
  · intro h1 h2
    rw [hok V (p1 (by omega) (by omega))]
    have a1 : V > 1024 := h1
    have a2 : ¬ V ≥ 1024 * 1024 * 1024 := by omega
    have a3 : ¬ V ≥ 1024 * 1024 := by omega
    simp only [a1, a2, a3, if_true, if_false]
  · intro h1 h2
    rw [hok V (p1 (by omega) (by omega))]
    have a1 : V > 1024 := by omega
    have a2 : ¬ V ≥ 1024 * 1024 * 1024 := by omega
    have a3 : V ≥ 1024 * 1024 := h1
    simp only [a1, a2, a3, if_true, if_false]
    have hcast : V = ((V.toNat : Nat) : Int) := by omega
    have hmain := fmt_ofInt_div V.toNat 20 (by omega) (by omega) (by norm_num)
    rw [← hcast, ← ofInt_mi, nearest53_of_le _ (by omega)] at hmain
    rw [hmain]
    norm_num
  · intro h1 h2
    rw [hok V (p1 (by omega) h2)]
    have a1 : V > 1024 := by omega
    have a2 : V ≥ 1024 * 1024 * 1024 := h1
    simp only [a1, a2, if_true]
    have hcast : V = ((V.toNat : Nat) : Int) := by omega
    have hmain := fmt_ofInt_div V.toNat 30 (by omega) (by omega) (by norm_num)
    rw [← hcast, ← ofInt_gi] at hmain
    rw [hmain]
    norm_num
  · intro hle
    exact nearest53_of_le _ (by omega)
  · intro hge
    obtain ⟨e, he⟩ := p2 (Or.inr hge)
    exact normalizeDisplay_error s e he

theorem normalizeDisplay_plainInt_witness :
    isPlainInt "2147483648" = true ∧
      normalizeDisplay "2147483648" =
        fixedDecimals 2 (nearest53 (intValue "2147483648").toNat) (1024 * 1024 * 1024) ++ "Gi" ∧
      normalizeDisplay "2147483648" = "2.00Gi" :=
  ⟨by decide,
    (normalizeDisplay_plainInt "2147483648" (by decide)).2.2.2.1 (by decide) (by decide),
    by decide⟩

/-- C1, as the claim states it, fails in two ways. The plain integer `2^63` is at least
`1024^3` but is kept unchanged, where the claim has `8589934592.00Gi`. The plain integer
`9007199657394175` is printed as `8388608.38Gi`, where its quotient by `1024^3` rendered
with two decimals is `8388608.37`. -/
theorem normalizeDisplay_plainInt_counterexample :
    (isPlainInt "9223372036854775808" = true ∧
      intValue "9223372036854775808" = 2 ^ 63 ∧
      normalizeDisplay "9223372036854775808" = "9223372036854775808" ∧
      fixedDecimals 2 (2 ^ 63) (1024 * 1024 * 1024) ++ "Gi" = "8589934592.00Gi") ∧
    (isPlainInt "9007199657394175" = true ∧
      intValue "9007199657394175" = 9007199657394175 ∧
      normalizeDisplay "9007199657394175" = "8388608.38Gi" ∧
      fixedDecimals 2 9007199657394175 (1024 * 1024 * 1024) ++ "Gi" = "8388608.37Gi") := by
  decide

end ResourceQuotas
